import Mathlib

/-!
Shallow embedding of the tree-core dependency-graph engine
(`dependencyGraph.ts`): graph construction, reverse-edge derivation,
topological sort with cycle detection, transitive-dependent traversal,
validation, and the serialize/deserialize codec.

JavaScript `Map` and `Set` are insertion-ordered, so they are modelled as
association lists (`SMap`) and duplicate-free lists in insertion order.
The recursive DFS helpers receive explicit fuel; a bound derived from the
number of distinct names occurring in the graph is proved sufficient.
-/

namespace TreeCore

/-- Entries of a JavaScript `Map` keyed by strings, in insertion order. -/
abbrev SMap (α : Type) := List (String × α)

/-- Keys of a map, in insertion order (`map.keys()`). -/
def mapKeys {α : Type} (m : SMap α) : List String := m.map Prod.fst

/-- `map.get(k)`. -/
def mapLookup {α : Type} : SMap α → String → Option α
  | [], _ => none
  | (k', v) :: rest, k => if k' = k then some v else mapLookup rest k

/-- `map.has(k)`. -/
def mapHas {α : Type} (m : SMap α) (k : String) : Bool := (mapLookup m k).isSome

/-- `map.set(k, v)`: overwrite in place when the key exists, append otherwise. -/
def mapSet {α : Type} : SMap α → String → α → SMap α
  | [], k, v => [(k, v)]
  | (k', v') :: rest, k, v =>
      if k' = k then (k, v) :: rest else (k', v') :: mapSet rest k v

/-- `set.add(x)` on a JavaScript `Set` held as a duplicate-free list. -/
def setAdd (s : List String) (x : String) : List String :=
  if x ∈ s then s else s ++ [x]

/-- `new Set(array)`: deduplicate keeping first occurrences. -/
def listToSet (l : List String) : List String := l.foldl setAdd []

/-- `PackageInfo` from `types.ts`; the three dependency fields are JS Sets. -/
structure PackageInfo where
  name : String
  version : String
  path : String
  dependencies : List String
  devDependencies : List String
  localDependencies : List String
deriving DecidableEq, Repr

/-- `DependencyGraph` from `types.ts`. -/
structure DependencyGraph where
  packages : SMap PackageInfo
  edges : SMap (List String)
  reverseEdges : SMap (List String)
deriving DecidableEq, Repr

/-- One record of `SerializedGraph.packages`. -/
structure SerializedPackage where
  name : String
  version : String
  path : String
  dependencies : List String
deriving DecidableEq, Repr

/-- `SerializedGraph` from `types.ts`. -/
structure SerializedGraph where
  packages : List SerializedPackage
  edges : List (String × List String)
deriving DecidableEq, Repr

/-- `edges.get(packageName) || new Set()` — the forward edge targets of a name. -/
def depsOf (edges : SMap (List String)) (name : String) : List String :=
  (mapLookup edges name).getD []

/-- One step of the body of the loop in `buildReverseGraph`:
ensure the reverse-set for `dep` exists, then add `pkg` to it. -/
def revInsert (rev : SMap (List String)) (dep pkg : String) : SMap (List String) :=
  mapSet rev dep (setAdd ((mapLookup rev dep).getD []) pkg)

/-- `buildReverseGraph(edges)`. -/
def buildReverseGraph (edges : SMap (List String)) : SMap (List String) :=
  edges.foldl (fun rev p => p.2.foldl (fun rev' dep => revInsert rev' dep p.1) rev) []

/-- First pass of `buildDependencyGraph`: insert each parsed package keyed by
its name (last write wins). -/
def insertPackages (infos : List PackageInfo) : SMap PackageInfo :=
  infos.foldl (fun m i => mapSet m i.name i) []

/-- Second-pass filter of `buildDependencyGraph`: the declared dependencies
that resolve to a key of the node map, in declaration order. -/
def localDepsOf (packages : SMap PackageInfo) (info : PackageInfo) : List String :=
  info.dependencies.filter (fun d => mapHas packages d)

/-- `buildDependencyGraph`, starting from the already-parsed package infos
(the `parsePackageJson` calls are external I/O). -/
def buildDependencyGraph (infos : List PackageInfo) : DependencyGraph :=
  let packages := insertPackages infos
  let packages2 := packages.map
    (fun p => (p.1, { p.2 with localDependencies := localDepsOf packages p.2 }))
  let edges := packages.map (fun p => (p.1, localDepsOf packages p.2))
  { packages := packages2, edges := edges, reverseEdges := buildReverseGraph edges }

/-- `serializeGraph(graph)`. -/
def serializeGraph (g : DependencyGraph) : SerializedGraph :=
  { packages := g.packages.map
      (fun p => { name := p.2.name, version := p.2.version, path := p.2.path,
                  dependencies := p.2.dependencies }),
    edges := g.edges.map (fun p => (p.1, p.2)) }

/-- The package record restored by `deserializeGraph`. -/
def restorePackage (p : SerializedPackage) : PackageInfo :=
  { name := p.name, version := p.version, path := p.path,
    dependencies := listToSet p.dependencies,
    devDependencies := [], localDependencies := [] }

/-- `deserializeGraph(serialized)`. -/
def deserializeGraph (s : SerializedGraph) : DependencyGraph :=
  let packages := s.packages.foldl (fun m p => mapSet m p.name (restorePackage p)) []
  let edges := s.edges.foldl (fun m p => mapSet m p.1 (listToSet p.2)) []
  { packages := packages, edges := edges, reverseEdges := buildReverseGraph edges }

/-- The message of the `Error` thrown on re-entering an in-progress node. -/
def cycleMsg (name : String) : String :=
  "Circular dependency detected involving package: " ++ name

/-- Mutable state of `topologicalSort`: `visited`, `visiting` (kept as the
stack of in-progress nodes in insertion order) and `result`. -/
structure SortState where
  visited : Finset String
  visiting : List String
  result : List String
deriving DecidableEq

/-- Run a sequence of node visits, stopping at the first error; generic in
the single-node visitor so that the dependency loop of `visit` can reuse it. -/
def runList (f : String → SortState → Option (Except String SortState)) :
    List String → SortState → Option (Except String SortState)
  | [], st => some (Except.ok st)
  | d :: ds, st =>
      match f d st with
      | none => none
      | some (Except.error e) => some (Except.error e)
      | some (Except.ok st') => runList f ds st'

/-- The recursive `visit` closure of `topologicalSort`, with explicit fuel
bounding the recursion depth (`none` = fuel exhausted, never reached for the
bound chosen below). -/
def visit (edges : SMap (List String)) : Nat → String → SortState → Option (Except String SortState)
  | 0, _, _ => none
  | Nat.succ n, name, st =>
      if name ∈ st.visited then some (Except.ok st)
      else if name ∈ st.visiting then some (Except.error (cycleMsg name))
      else
        match runList (visit edges n) (depsOf edges name)
            { st with visiting := st.visiting ++ [name] } with
        | none => none
        | some (Except.error e) => some (Except.error e)
        | some (Except.ok st') =>
            some (Except.ok
              { visited := insert name st'.visited,
                visiting := st'.visiting.erase name,
                result := st'.result ++ [name] })

/-- The root loop of `topologicalSort` over `packages.keys()`. -/
def sortLoop (edges : SMap (List String)) (fuel : Nat) :
    List String → SortState → Option (Except String SortState)
  | [], st => some (Except.ok st)
  | k :: ks, st =>
      if k ∈ st.visited then sortLoop edges fuel ks st
      else
        match visit edges fuel k st with
        | none => none
        | some (Except.error e) => some (Except.error e)
        | some (Except.ok st') => sortLoop edges fuel ks st'

/-- Every name appearing as a forward-edge target. -/
def edgeTargets (edges : SMap (List String)) : Finset String :=
  edges.foldr (fun p acc => p.2.toFinset ∪ acc) ∅

/-- Every name the sort's traversal can ever touch. -/
def sortNames (g : DependencyGraph) : Finset String :=
  (mapKeys g.packages).toFinset ∪ (mapKeys g.edges).toFinset ∪ edgeTargets g.edges

/-- Fuel sufficient for the sort (proved below). -/
def sortFuel (g : DependencyGraph) : Nat := (sortNames g).card + 1

def initSortState : SortState := { visited := ∅, visiting := [], result := [] }

/-- `topologicalSort(graph)`: `Except.error` models the thrown `Error`.
The fuel-exhaustion branch is proved unreachable. -/
def topologicalSort (g : DependencyGraph) : Except String (List String) :=
  match sortLoop g.edges (sortFuel g) (mapKeys g.packages) initSortState with
  | some (Except.ok st) => Except.ok st.result
  | some (Except.error e) => Except.error e
  | none => Except.error "fuel exhausted"

/-- State of the `findAllDependents` traversal. -/
structure DepState where
  dependents : Finset String
  visited : Finset String
deriving DecidableEq

/-- The dependents loop: add each direct dependent, then recurse into it. -/
def travList (f : String → DepState → Option DepState) :
    List String → DepState → Option DepState
  | [], st => some st
  | d :: ds, st =>
      match f d { st with dependents := insert d st.dependents } with
      | none => none
      | some st' => travList f ds st'

/-- The recursive `traverse` closure of `findAllDependents`, fueled. -/
def traverse (rev : SMap (List String)) : Nat → String → DepState → Option DepState
  | 0, _, _ => none
  | Nat.succ n, pkg, st =>
      if pkg ∈ st.visited then some st
      else travList (traverse rev n) (depsOf rev pkg)
            { st with visited := insert pkg st.visited }

/-- Names the dependents traversal can touch when started at `name`. -/
def revNames (rev : SMap (List String)) (name : String) : Finset String :=
  (mapKeys rev).toFinset ∪ edgeTargets rev ∪ {name}

/-- Fuel sufficient for the dependents traversal (proved below). -/
def revFuel (rev : SMap (List String)) (name : String) : Nat :=
  (revNames rev name).card + 1

/-- `findAllDependents(packageName, graph)`. The fuel-exhaustion default is
proved unreachable. -/
def findAllDependents (packageName : String) (g : DependencyGraph) : Finset String :=
  match traverse g.reverseEdges (revFuel g.reverseEdges packageName) packageName
      { dependents := ∅, visited := ∅ } with
  | some st => st.dependents
  | none => ∅

/-- The apostrophe character, spelled via its code point. -/
def apos : String := String.singleton (Char.ofNat 39)

/-- The missing-edge-target error message of `validateGraph`. -/
def missingMsg (pkg dep : String) : String :=
  "Package " ++ pkg ++ " depends on " ++ dep ++ " which doesn" ++ apos ++ "t exist"

/-- The first check of `validateGraph`: one error per forward-edge target
absent from the node map, in iteration order. -/
def missingTargetErrors (g : DependencyGraph) : List String :=
  g.edges.foldl
    (fun errs p =>
      errs ++ (p.2.filter (fun dep => !(mapHas g.packages dep))).map (missingMsg p.1))
    []

/-- `validateGraph(graph)`: the pair `(valid, errors)`. -/
def validateGraph (g : DependencyGraph) : Bool × List String :=
  let errors := missingTargetErrors g ++
    (match topologicalSort g with
     | Except.ok _ => []
     | Except.error e => [e])
  (errors.isEmpty, errors)

/-- The forward-edge step relation: `b` is a local dependency of `a`. -/
def EdgeStep (edges : SMap (List String)) (a b : String) : Prop := b ∈ depsOf edges a

/-- A cycle in the forward edges: some node reaches itself in one or more steps. -/
def HasCycle (edges : SMap (List String)) : Prop :=
  ∃ v, Relation.TransGen (EdgeStep edges) v v

/-- Documented well-formedness of a `DependencyGraph` (§3 of the spec): the
node map and edge map have unique keys, every edge set is duplicate-free,
and every edge source is a node. -/
abbrev GraphWF (g : DependencyGraph) : Prop :=
  (mapKeys g.packages).Nodup ∧ (mapKeys g.edges).Nodup ∧
  (∀ p ∈ g.edges, (p.2 : List String).Nodup) ∧
  (∀ k ∈ mapKeys g.edges, k ∈ mapKeys g.packages)

/-! ### Basic lemmas about the `Map`/`Set` model -/

theorem mapKeys_append {α : Type} (a b : SMap α) :
    mapKeys (a ++ b) = mapKeys a ++ mapKeys b := by
  simp [mapKeys]

theorem mapLookup_mapSet {α : Type} (m : SMap α) (k k' : String) (v : α) :
    mapLookup (mapSet m k v) k' = if k = k' then some v else mapLookup m k' := by
  induction m with
  | nil => simp [mapSet, mapLookup]
  | cons p rest ih =>
      obtain ⟨k0, v0⟩ := p
      simp only [mapSet]
      by_cases h : k0 = k
      · subst h
        simp only [if_pos rfl, mapLookup]
        by_cases h' : k0 = k' <;> simp [h']
      · simp only [if_neg h, mapLookup, ih]
        by_cases h' : k0 = k'
        · subst h'
          have hkk : ¬ k = k0 := fun hk => h hk.symm
          simp [hkk]
        · simp [h']

theorem mapKeys_cons {α : Type} (p : String × α) (rest : SMap α) :
    mapKeys (p :: rest) = p.1 :: mapKeys rest := rfl

theorem mapKeys_mapSet_of_mem {α : Type} :
    ∀ (m : SMap α) (k : String) (v : α), k ∈ mapKeys m →
    mapKeys (mapSet m k v) = mapKeys m := by
  intro m
  induction m with
  | nil => intro k v h; simp [mapKeys] at h
  | cons p rest ih =>
      intro k v h
      obtain ⟨k0, v0⟩ := p
      by_cases hk : k0 = k
      · subst hk
        simp [mapSet, mapKeys]
      · rw [mapKeys_cons, List.mem_cons] at h
        have hm : k ∈ mapKeys rest := by
          rcases h with h | h
          · exact absurd h.symm hk
          · exact h
        rw [show mapSet ((k0, v0) :: rest) k v = (k0, v0) :: mapSet rest k v by
              simp [mapSet, hk],
            mapKeys_cons, mapKeys_cons, ih k v hm]

theorem mapSet_of_not_mem {α : Type} :
    ∀ (m : SMap α) (k : String) (v : α), k ∉ mapKeys m →
    mapSet m k v = m ++ [(k, v)] := by
  intro m
  induction m with
  | nil => intro k v _; simp [mapSet]
  | cons p rest ih =>
      intro k v h
      obtain ⟨k0, v0⟩ := p
      rw [mapKeys_cons, List.mem_cons] at h
      push_neg at h
      have hk : ¬ k0 = k := fun he => h.1 he.symm
      simp only [mapSet, if_neg hk, List.cons_append, List.cons.injEq, true_and]
      exact ih k v h.2

theorem mapLookup_isSome_iff {α : Type} (m : SMap α) (k : String) :
    (mapLookup m k).isSome = true ↔ k ∈ mapKeys m := by
  induction m with
  | nil => simp [mapLookup, mapKeys]
  | cons p rest ih =>
      obtain ⟨k0, v0⟩ := p
      rw [mapKeys_cons, List.mem_cons]
      by_cases h : k0 = k
      · subst h
        simp [mapLookup]
      · have hk : ¬ k = k0 := fun he => h he.symm
        simp [mapLookup, h, hk, ih]

theorem mapHas_iff_mem_keys {α : Type} (m : SMap α) (k : String) :
    mapHas m k = true ↔ k ∈ mapKeys m := by
  simp [mapHas, mapLookup_isSome_iff]

theorem mem_of_mapLookup_eq_some {α : Type} {m : SMap α} {k : String} {v : α}
    (h : mapLookup m k = some v) : (k, v) ∈ m := by
  induction m with
  | nil => simp [mapLookup] at h
  | cons p rest ih =>
      obtain ⟨k0, v0⟩ := p
      by_cases hk : k0 = k
      · subst hk
        simp [mapLookup] at h
        simp [h]
      · simp [mapLookup, hk] at h
        simp [ih h]

theorem mapLookup_eq_some_of_mem_nodup {α : Type} :
    ∀ {m : SMap α} {k : String} {v : α},
    (k, v) ∈ m → (mapKeys m).Nodup → mapLookup m k = some v := by
  intro m
  induction m with
  | nil => intro k v hmem _; simp at hmem
  | cons p rest ih =>
      intro k v hmem hnd
      obtain ⟨k0, v0⟩ := p
      rw [mapKeys_cons] at hnd
      obtain ⟨hk0, hrest⟩ := List.nodup_cons.mp hnd
      rcases List.mem_cons.mp hmem with h | h
      · cases h
        simp [mapLookup]
      · have hk : ¬ k0 = k := by
          intro he
          subst he
          have hmem2 := List.mem_map_of_mem Prod.fst h
          exact hk0 hmem2
        simp only [mapLookup, if_neg hk]
        exact ih h hrest

theorem mem_setAdd {s : List String} {x y : String} :
    y ∈ setAdd s x ↔ y ∈ s ∨ y = x := by
  by_cases h : x ∈ s
  · simp only [setAdd, if_pos h]
    constructor
    · exact fun hy => Or.inl hy
    · rintro (hy | rfl) <;> assumption
  · simp [setAdd, if_neg h]

theorem setAdd_ne_nil (s : List String) (x : String) : setAdd s x ≠ [] := by
  by_cases h : x ∈ s
  · simp only [setAdd, if_pos h]
    intro he
    exact absurd (he ▸ h) (List.not_mem_nil x)
  · simp [setAdd, if_neg h]

theorem foldl_setAdd_of_fresh :
    ∀ (l acc : List String), acc.Nodup → (∀ x ∈ l, x ∉ acc) → l.Nodup →
    l.foldl setAdd acc = acc ++ l := by
  intro l
  induction l with
  | nil => intro acc _ _ _; simp
  | cons h t ih =>
      intro acc hacc hfresh hnd
      have hh : h ∉ acc := hfresh h (by simp)
      obtain ⟨hht, hndt⟩ := List.nodup_cons.mp hnd
      have step : setAdd acc h = acc ++ [h] := by simp [setAdd, hh]
      simp only [List.foldl_cons, step]
      rw [ih (acc ++ [h])]
      · simp
      · rw [List.nodup_append]
        exact ⟨hacc, List.nodup_singleton h,
          fun a ha hb => absurd ha ((List.mem_singleton.mp hb) ▸ hh)⟩
      · intro x hx
        rw [List.mem_append, List.mem_singleton]
        push_neg
        refine ⟨hfresh x (by simp [hx]), ?_⟩
        intro he
        subst he
        exact absurd hx hht
      · exact hndt

theorem listToSet_of_nodup {l : List String} (h : l.Nodup) : listToSet l = l := by
  have := foldl_setAdd_of_fresh l [] (by simp) (by simp) h
  simpa [listToSet] using this

theorem foldl_mapSet_pairs {α : Type} :
    ∀ (L acc : SMap α), (mapKeys (acc ++ L)).Nodup →
    L.foldl (fun m q => mapSet m q.1 q.2) acc = acc ++ L := by
  intro L
  induction L with
  | nil => intro acc _; simp
  | cons q L ih =>
      intro acc hnd
      have hq : q.1 ∉ mapKeys acc := by
        rw [mapKeys_append] at hnd
        intro hmem
        have hqm : q.1 ∈ mapKeys (q :: L) := by rw [mapKeys_cons]; simp
        exact (List.nodup_append.mp hnd).2.2 hmem hqm
      have step : mapSet acc q.1 q.2 = acc ++ [q] := by
        have := mapSet_of_not_mem acc q.1 q.2 hq
        simpa using this
      simp only [List.foldl_cons, step]
      rw [ih (acc ++ [q])]
      · simp
      · have : (acc ++ [q]) ++ L = acc ++ q :: L := by simp
        rw [this]
        exact hnd

/-! ### The reverse-graph deriver -/

/-- The reverse-set recorded for `t`, with "absent" read as the empty set. -/
def revLook (rev : SMap (List String)) (t : String) : List String :=
  (mapLookup rev t).getD []

/-- The inner loop of `buildReverseGraph` for one entry `(pkg, deps)`. -/
def revInsertAll (rev : SMap (List String)) (deps : List String) (pkg : String) :
    SMap (List String) :=
  deps.foldl (fun r d => revInsert r d pkg) rev

theorem buildReverseGraph_eq_fold (edges : SMap (List String)) :
    buildReverseGraph edges =
      edges.foldl (fun rev p => revInsertAll rev p.2 p.1) [] := rfl

theorem revLook_revInsert (rev : SMap (List String)) (dep pkg t : String) :
    revLook (revInsert rev dep pkg) t =
      if dep = t then setAdd (revLook rev dep) pkg else revLook rev t := by
  simp only [revLook, revInsert, mapLookup_mapSet]
  by_cases h : dep = t <;> simp [h]

theorem mem_revLook_revInsertAll :
    ∀ (deps : List String) (rev : SMap (List String)) (pkg t s : String),
    s ∈ revLook (revInsertAll rev deps pkg) t ↔
      s ∈ revLook rev t ∨ (s = pkg ∧ t ∈ deps) := by
  intro deps
  induction deps with
  | nil => intro rev pkg t s; simp [revInsertAll]
  | cons d ds ih =>
      intro rev pkg t s
      have step : revInsertAll rev (d :: ds) pkg =
          revInsertAll (revInsert rev d pkg) ds pkg := rfl
      rw [step, ih, revLook_revInsert]
      by_cases h : d = t
      · subst h
        rw [if_pos rfl, mem_setAdd]
        constructor
        · rintro ((hs | hs) | hs)
          · exact Or.inl hs
          · exact Or.inr ⟨hs, by simp⟩
          · exact Or.inr ⟨hs.1, by simp⟩
        · rintro (hs | hs)
          · exact Or.inl (Or.inl hs)
          · exact Or.inl (Or.inr hs.1)
      · rw [if_neg h]
        constructor
        · rintro (hs | hs)
          · exact Or.inl hs
          · exact Or.inr ⟨hs.1, by simp [hs.2]⟩
        · rintro (hs | hs)
          · exact Or.inl hs
          · rcases List.mem_cons.mp hs.2 with he | he
            · exact absurd he.symm h
            · exact Or.inr ⟨hs.1, he⟩

theorem mem_revLook_foldRev :
    ∀ (entries : SMap (List String)) (rev : SMap (List String)) (t s : String),
    s ∈ revLook (entries.foldl (fun r p => revInsertAll r p.2 p.1) rev) t ↔
      s ∈ revLook rev t ∨ ∃ p, p ∈ entries ∧ p.1 = s ∧ t ∈ p.2 := by
  intro entries
  induction entries with
  | nil => intro rev t s; simp
  | cons p ps ih =>
      intro rev t s
      simp only [List.foldl_cons]
      rw [ih, mem_revLook_revInsertAll]
      constructor
      · rintro ((hs | hs) | ⟨q, hq, hqs, hqt⟩)
        · exact Or.inl hs
        · exact Or.inr ⟨p, by simp, hs.1.symm, hs.2⟩
        · exact Or.inr ⟨q, by simp [hq], hqs, hqt⟩
      · rintro (hs | ⟨q, hq, hqs, hqt⟩)
        · exact Or.inl (Or.inl hs)
        · rcases List.mem_cons.mp hq with he | he
          · subst he
            exact Or.inl (Or.inr ⟨hqs.symm, hqt⟩)
          · exact Or.inr ⟨q, he, hqs, hqt⟩

theorem mem_revLook_buildReverseGraph (edges : SMap (List String)) (t s : String) :
    s ∈ revLook (buildReverseGraph edges) t ↔
      ∃ p, p ∈ edges ∧ p.1 = s ∧ t ∈ p.2 := by
  rw [buildReverseGraph_eq_fold, mem_revLook_foldRev]
  simp [revLook, mapLookup]

theorem mem_mapSet {α : Type} :
    ∀ (m : SMap α) (k : String) (v : α) (p : String × α),
    p ∈ mapSet m k v → p ∈ m ∨ p = (k, v) := by
  intro m
  induction m with
  | nil => intro k v p hp; simp [mapSet] at hp; simp [hp]
  | cons q rest ih =>
      intro k v p hp
      by_cases h : q.1 = k
      · rw [show mapSet (q :: rest) k v = (k, v) :: rest by
            obtain ⟨q1, q2⟩ := q; simp at h; simp [mapSet, h]] at hp
        rcases List.mem_cons.mp hp with he | he
        · exact Or.inr he
        · exact Or.inl (by simp [he])
      · rw [show mapSet (q :: rest) k v = q :: mapSet rest k v by
            obtain ⟨q1, q2⟩ := q; simp at h; simp [mapSet, h]] at hp
        rcases List.mem_cons.mp hp with he | he
        · exact Or.inl (by simp [he])
        · rcases ih k v p he with hh | hh
          · exact Or.inl (by simp [hh])
          · exact Or.inr hh

theorem revInsert_vals_ne_nil (rev : SMap (List String)) (dep pkg : String)
    (h : ∀ p ∈ rev, p.2 ≠ []) : ∀ p ∈ revInsert rev dep pkg, p.2 ≠ [] := by
  intro p hp
  rcases mem_mapSet _ _ _ _ hp with hm | hm
  · exact h p hm
  · rw [hm]
    exact setAdd_ne_nil _ _

theorem revInsertAll_vals_ne_nil :
    ∀ (deps : List String) (rev : SMap (List String)) (pkg : String),
    (∀ p ∈ rev, p.2 ≠ []) → ∀ p ∈ revInsertAll rev deps pkg, p.2 ≠ [] := by
  intro deps
  induction deps with
  | nil => intro rev pkg h; exact h
  | cons d ds ih =>
      intro rev pkg h
      exact ih (revInsert rev d pkg) pkg (revInsert_vals_ne_nil rev d pkg h)

theorem buildReverseGraph_vals_ne_nil (edges : SMap (List String)) :
    ∀ p ∈ buildReverseGraph edges, p.2 ≠ [] := by
  rw [buildReverseGraph_eq_fold]
  have main : ∀ (es rev : SMap (List String)), (∀ p ∈ rev, p.2 ≠ []) →
      ∀ p ∈ es.foldl (fun r q => revInsertAll r q.2 q.1) rev, p.2 ≠ [] := by
    intro es
    induction es with
    | nil => intro rev h; exact h
    | cons q qs ih =>
        intro rev h
        exact ih _ (revInsertAll_vals_ne_nil q.2 rev q.1 h)
  exact main edges [] (by simp)

theorem depsOf_iff_entry {E : SMap (List String)} (hk : (mapKeys E).Nodup)
    (s t : String) : t ∈ depsOf E s ↔ ∃ p, p ∈ E ∧ p.1 = s ∧ t ∈ p.2 := by
  constructor
  · intro h
    unfold depsOf at h
    cases hm : mapLookup E s with
    | none => rw [hm] at h; simp at h
    | some deps =>
        rw [hm] at h
        exact ⟨(s, deps), mem_of_mapLookup_eq_some hm, rfl, h⟩
  · rintro ⟨⟨p1, p2⟩, hp, rfl, ht⟩
    unfold depsOf
    rw [mapLookup_eq_some_of_mem_nodup hp hk]
    exact ht

/-! ### Concrete example data shared by witnesses and counterexamples -/

/-- A parsed package descriptor with the given name and declared dependencies. -/
def exPkg (n : String) (deps : List String) : PackageInfo :=
  { name := n, version := "1.0.0", path := "/ws/" ++ n,
    dependencies := deps, devDependencies := [], localDependencies := [] }

/-- The spec's concrete scenario: `{a: [], b: [a], c: [a, b]}`. -/
def exGraphChain : DependencyGraph :=
  buildDependencyGraph [exPkg "a" [], exPkg "b" ["a"], exPkg "c" ["a", "b"]]

/-- The spec's cyclic scenario: `{a: [b], b: [a]}`. -/
def exGraphCyc : DependencyGraph :=
  buildDependencyGraph [exPkg "a" ["b"], exPkg "b" ["a"]]

/-- A tampered graph with an edge to the nonexistent node `b`. -/
def exGraphMiss : DependencyGraph :=
  { packages := [("a", exPkg "a" [])], edges := [("a", ["b"])],
    reverseEdges := buildReverseGraph [("a", ["b"])] }

/-- A standalone forward-edge mapping. -/
def exEdges : SMap (List String) := [("b", ["a"]), ("c", ["a", "b"])]

/-- A ranking argument showing a forward-edge relation has no cycle. -/
theorem no_cycle_of_rank {edges : SMap (List String)} (rank : String → Nat)
    (h : ∀ x y, EdgeStep edges x y → rank y < rank x) : ¬ HasCycle edges := by
  rintro ⟨v, hv⟩
  have dec : ∀ x y, Relation.TransGen (EdgeStep edges) x y → rank y < rank x := by
    intro x y hxy
    induction hxy with
    | single h1 => exact h _ _ h1
    | tail ht hr ih => exact lt_trans (h _ _ hr) ih
  exact lt_irrefl _ (dec v v hv)

theorem exGraphChain_step {x y : String} (h : EdgeStep exGraphChain.edges x y) :
    (x = "b" ∧ y = "a") ∨ (x = "c" ∧ (y = "a" ∨ y = "b")) := by
  have he : exGraphChain.edges =
      [("a", []), ("b", ["a"]), ("c", ["a", "b"])] := by rfl
  unfold EdgeStep depsOf at h
  rw [he] at h
  simp only [mapLookup] at h
  split_ifs at h with h1 h2 h3 <;> simp_all

theorem exGraphChain_acyclic : ¬ HasCycle exGraphChain.edges := by
  apply no_cycle_of_rank (fun s => if s = "a" then 0 else if s = "b" then 1 else 2)
  intro x y h
  rcases exGraphChain_step h with ⟨hx, hy⟩ | ⟨hx, hy⟩
  · simp [hx, hy]
  · rcases hy with hy | hy <;> simp [hx, hy]

theorem exGraphMiss_step {x y : String} (h : EdgeStep exGraphMiss.edges x y) :
    x = "a" ∧ y = "b" := by
  have he : exGraphMiss.edges = [("a", ["b"])] := by rfl
  unfold EdgeStep depsOf at h
  rw [he] at h
  simp only [mapLookup] at h
  split_ifs at h with h1 <;> simp_all

theorem exGraphMiss_acyclic : ¬ HasCycle exGraphMiss.edges := by
  apply no_cycle_of_rank (fun s => if s = "b" then 0 else 1)
  intro x y h
  obtain ⟨hx, hy⟩ := exGraphMiss_step h
  simp [hx, hy]

/-- C7: `buildReverseGraph(E)` is the exact transpose of a forward-edge map
`E`: `source` is in the reverse-set at key `target` iff `target` is among the
forward targets of `source`; and every key present in the result carries a
non-empty set, a name with no dependents being simply absent. -/
theorem buildReverseGraph_exact_transpose (E : SMap (List String))
    (hk : (mapKeys E).Nodup) :
    (∀ s t, s ∈ revLook (buildReverseGraph E) t ↔ t ∈ depsOf E s) ∧
    (∀ p ∈ buildReverseGraph E, p.2 ≠ []) ∧
    (∀ t, t ∈ mapKeys (buildReverseGraph E) →
      revLook (buildReverseGraph E) t ≠ []) := by
  refine ⟨?_, buildReverseGraph_vals_ne_nil E, ?_⟩
  · intro s t
    rw [mem_revLook_buildReverseGraph, depsOf_iff_entry hk]
  · intro t ht
    obtain ⟨v, hv⟩ := Option.isSome_iff_exists.mp ((mapLookup_isSome_iff _ t).mpr ht)
    have hmem := mem_of_mapLookup_eq_some hv
    have hne := buildReverseGraph_vals_ne_nil E _ hmem
    simpa [revLook, hv] using hne

/-- Witness for C7 at the concrete forward map `{b: [a], c: [a, b]}`. -/
theorem buildReverseGraph_exact_transpose_witness :
    (mapKeys exEdges).Nodup ∧
    ((∀ s t, s ∈ revLook (buildReverseGraph exEdges) t ↔ t ∈ depsOf exEdges s) ∧
     (∀ p ∈ buildReverseGraph exEdges, p.2 ≠ []) ∧
     (∀ t, t ∈ mapKeys (buildReverseGraph exEdges) →
       revLook (buildReverseGraph exEdges) t ≠ [])) :=
  ⟨by decide, buildReverseGraph_exact_transpose exEdges (by decide)⟩

/-! ### The graph codec -/

theorem foldl_mapSet_keyed {α β : Type} (key : β → String) (val : β → α) :
    ∀ (L : List β) (acc : SMap α), (mapKeys acc ++ L.map key).Nodup →
    L.foldl (fun m b => mapSet m (key b) (val b)) acc =
      acc ++ L.map (fun b => (key b, val b)) := by
  intro L
  induction L with
  | nil => intro acc _; simp
  | cons b L ih =>
      intro acc hnd
      have hb : key b ∉ mapKeys acc := by
        intro hmem
        exact (List.nodup_append.mp hnd).2.2 hmem (by simp)
      have step : mapSet acc (key b) (val b) = acc ++ [(key b, val b)] :=
        mapSet_of_not_mem acc (key b) (val b) hb
      simp only [List.foldl_cons, step]
      rw [ih (acc ++ [(key b, val b)])]
      · simp
      · rw [mapKeys_append]
        have hre : (mapKeys acc ++ mapKeys [(key b, val b)]) ++ L.map key =
            mapKeys acc ++ (key b :: L.map key) := by
          simp [mapKeys]
        rw [hre]
        simpa using hnd

theorem deserializeGraph_packages (s : SerializedGraph)
    (hn : (s.packages.map (fun p => p.name)).Nodup) :
    (deserializeGraph s).packages =
      s.packages.map (fun p => (p.name, restorePackage p)) := by
  show s.packages.foldl (fun m p => mapSet m p.name (restorePackage p)) [] = _
  have := foldl_mapSet_keyed (fun p : SerializedPackage => p.name) restorePackage
    s.packages [] (by simpa [mapKeys] using hn)
  simpa using this

theorem deserializeGraph_edges (s : SerializedGraph)
    (he : (s.edges.map Prod.fst).Nodup) :
    (deserializeGraph s).edges =
      s.edges.map (fun p => (p.1, listToSet p.2)) := by
  show s.edges.foldl (fun m p => mapSet m p.1 (listToSet p.2)) [] = _
  have := foldl_mapSet_keyed (fun p : String × List String => p.1)
    (fun p => listToSet p.2) s.edges [] (by simpa [mapKeys] using he)
  simpa using this

theorem deserializeGraph_reverseEdges (s : SerializedGraph) :
    (deserializeGraph s).reverseEdges = buildReverseGraph (deserializeGraph s).edges :=
  rfl

theorem serializeGraph_edges_eq (g : DependencyGraph) :
    (serializeGraph g).edges = g.edges := by
  show g.edges.map (fun p => (p.1, p.2)) = g.edges
  simp

/-- C3: a memory-to-disk-to-memory round trip preserves the package map's
keys and each package's name, version and path, preserves the edge map and
the (derived) reverse-edge map, and resets every restored package's
`devDependencies` and `localDependencies` to the empty set. Stated for
well-formed graphs: map keys are unique and match package names, dependency
sets are duplicate-free, and `reverseEdges` is the derived transpose. -/
theorem deserializeGraph_serializeGraph (g : DependencyGraph)
    (hname : ∀ p ∈ g.packages, (p.2 : PackageInfo).name = p.1)
    (hkeys : (mapKeys g.packages).Nodup)
    (hdeps : ∀ p ∈ g.packages, (p.2 : PackageInfo).dependencies.Nodup)
    (hek : (mapKeys g.edges).Nodup)
    (hev : ∀ p ∈ g.edges, (p.2 : List String).Nodup)
    (hrev : g.reverseEdges = buildReverseGraph g.edges) :
    (deserializeGraph (serializeGraph g)).packages =
      g.packages.map (fun p =>
        (p.1, { p.2 with devDependencies := [], localDependencies := [] })) ∧
    (deserializeGraph (serializeGraph g)).edges = g.edges ∧
    (deserializeGraph (serializeGraph g)).reverseEdges = g.reverseEdges := by
  have hsp : (serializeGraph g).packages = g.packages.map
      (fun p => { name := p.2.name, version := p.2.version, path := p.2.path,
                  dependencies := p.2.dependencies }) := rfl
  have hedges : (deserializeGraph (serializeGraph g)).edges = g.edges := by
    rw [deserializeGraph_edges _ (by
      rw [serializeGraph_edges_eq]
      simpa [mapKeys] using hek)]
    rw [serializeGraph_edges_eq]
    have : ∀ p ∈ g.edges, (fun q : String × List String => (q.1, listToSet q.2)) p
        = (fun q : String × List String => q) p := by
      intro p hp
      simp [listToSet_of_nodup (hev p hp)]
    rw [List.map_congr_left this]
    simp
  refine ⟨?_, hedges, ?_⟩
  · rw [deserializeGraph_packages _ (by
      rw [hsp, List.map_map]
      have : ∀ p ∈ g.packages,
          ((fun q : SerializedPackage => q.name) ∘
            (fun p : String × PackageInfo =>
              ({ name := p.2.name, version := p.2.version, path := p.2.path,
                 dependencies := p.2.dependencies } : SerializedPackage))) p
          = Prod.fst p := by
        intro p hp
        simpa using hname p hp
      rw [List.map_congr_left this]
      exact hkeys)]
    rw [hsp, List.map_map]
    apply List.map_congr_left
    intro p hp
    obtain ⟨p1, p2⟩ := p
    obtain ⟨n, ver, pth, dep, dev, loc⟩ := p2
    have h1 : n = p1 := hname (p1, PackageInfo.mk n ver pth dep dev loc) hp
    have h2 : dep.Nodup := hdeps (p1, PackageInfo.mk n ver pth dep dev loc) hp
    simp [restorePackage, listToSet_of_nodup h2, h1]
  · rw [deserializeGraph_reverseEdges, hedges, hrev]

/-- Witness for C3 at the spec's three-node scenario graph. -/
theorem deserializeGraph_serializeGraph_witness :
    ((∀ p ∈ exGraphChain.packages, (p.2 : PackageInfo).name = p.1) ∧
     (mapKeys exGraphChain.packages).Nodup ∧
     (∀ p ∈ exGraphChain.packages, (p.2 : PackageInfo).dependencies.Nodup) ∧
     (mapKeys exGraphChain.edges).Nodup ∧
     (∀ p ∈ exGraphChain.edges, (p.2 : List String).Nodup) ∧
     exGraphChain.reverseEdges = buildReverseGraph exGraphChain.edges) ∧
    ((deserializeGraph (serializeGraph exGraphChain)).packages =
      exGraphChain.packages.map (fun p =>
        (p.1, { p.2 with devDependencies := [], localDependencies := [] })) ∧
     (deserializeGraph (serializeGraph exGraphChain)).edges = exGraphChain.edges ∧
     (deserializeGraph (serializeGraph exGraphChain)).reverseEdges =
       exGraphChain.reverseEdges) :=
  ⟨⟨by decide, by decide, by decide, by decide, by decide, by decide⟩,
   deserializeGraph_serializeGraph exGraphChain (by decide) (by decide) (by decide)
     (by decide) (by decide) (by decide)⟩

/-- C10: a disk-to-memory-to-disk round trip reproduces the serialized
document record for record, in order, whenever its package names are
pairwise distinct, its edge keys are pairwise distinct, and its dependency
and edge-target lists are duplicate-free. -/
theorem serializeGraph_deserializeGraph (s : SerializedGraph)
    (hn : (s.packages.map (fun p => p.name)).Nodup)
    (he : (s.edges.map Prod.fst).Nodup)
    (hd : ∀ p ∈ s.packages, (p : SerializedPackage).dependencies.Nodup)
    (hev : ∀ p ∈ s.edges, (p.2 : List String).Nodup) :
    serializeGraph (deserializeGraph s) = s := by
  obtain ⟨sp, se⟩ := s
  have hp : (serializeGraph (deserializeGraph ⟨sp, se⟩)).packages = sp := by
    show ((deserializeGraph ⟨sp, se⟩).packages.map
      (fun p => ({ name := p.2.name, version := p.2.version, path := p.2.path,
                   dependencies := p.2.dependencies } : SerializedPackage))) = sp
    rw [deserializeGraph_packages _ hn, List.map_map]
    have : ∀ p ∈ sp,
        ((fun q : String × PackageInfo =>
           ({ name := q.2.name, version := q.2.version, path := q.2.path,
              dependencies := q.2.dependencies } : SerializedPackage)) ∘
         (fun p : SerializedPackage => (p.name, restorePackage p))) p = id p := by
      intro p hp
      obtain ⟨n, ver, pth, dep⟩ := p
      have h2 : dep.Nodup := hd (SerializedPackage.mk n ver pth dep) hp
      simp [restorePackage, listToSet_of_nodup h2]
    rw [List.map_congr_left this, List.map_id]
  have hedge : (serializeGraph (deserializeGraph ⟨sp, se⟩)).edges = se := by
    rw [serializeGraph_edges_eq, deserializeGraph_edges _ he]
    have : ∀ p ∈ se, (fun q : String × List String => (q.1, listToSet q.2)) p
        = id p := by
      intro p hp
      simp [listToSet_of_nodup (hev p hp)]
    rw [List.map_congr_left this, List.map_id]
  have hsplit : serializeGraph (deserializeGraph ⟨sp, se⟩) =
      SerializedGraph.mk (serializeGraph (deserializeGraph ⟨sp, se⟩)).packages
        (serializeGraph (deserializeGraph ⟨sp, se⟩)).edges := rfl
  rw [hsplit, hp, hedge]

/-- Witness for C10 at the serialized form of the three-node scenario. -/
theorem serializeGraph_deserializeGraph_witness :
    (((serializeGraph exGraphChain).packages.map (fun p => p.name)).Nodup ∧
     ((serializeGraph exGraphChain).edges.map Prod.fst).Nodup ∧
     (∀ p ∈ (serializeGraph exGraphChain).packages,
       (p : SerializedPackage).dependencies.Nodup) ∧
     (∀ p ∈ (serializeGraph exGraphChain).edges, (p.2 : List String).Nodup)) ∧
    serializeGraph (deserializeGraph (serializeGraph exGraphChain)) =
      serializeGraph exGraphChain :=
  ⟨⟨by decide, by decide, by decide, by decide⟩,
   serializeGraph_deserializeGraph (serializeGraph exGraphChain)
     (by decide) (by decide) (by decide) (by decide)⟩

/-! ### The graph builder -/

theorem mapKeys_mapSet_nodup {α : Type} (m : SMap α) (k : String) (v : α)
    (h : (mapKeys m).Nodup) : (mapKeys (mapSet m k v)).Nodup := by
  by_cases hk : k ∈ mapKeys m
  · rw [mapKeys_mapSet_of_mem m k v hk]
    exact h
  · rw [mapSet_of_not_mem m k v hk, mapKeys_append]
    rw [List.nodup_append]
    exact ⟨h, by simp [mapKeys],
      fun a ha hb => hk (by
        have : a = k := by simpa [mapKeys] using hb
        exact this ▸ ha)⟩

theorem insertPackages_keys_nodup (infos : List PackageInfo) :
    (mapKeys (insertPackages infos)).Nodup := by
  have main : ∀ (l : List PackageInfo) (acc : SMap PackageInfo),
      (mapKeys acc).Nodup →
      (mapKeys (l.foldl (fun m i => mapSet m i.name i) acc)).Nodup := by
    intro l
    induction l with
    | nil => intro acc h; exact h
    | cons i l ih =>
        intro acc h
        exact ih _ (mapKeys_mapSet_nodup acc i.name i h)
  exact main infos [] (by simp [mapKeys])

theorem buildDependencyGraph_eq (infos : List PackageInfo) :
    buildDependencyGraph infos =
      { packages := (insertPackages infos).map (fun p =>
          (p.1, { p.2 with localDependencies := localDepsOf (insertPackages infos) p.2 })),
        edges := (insertPackages infos).map (fun p =>
          (p.1, localDepsOf (insertPackages infos) p.2)),
        reverseEdges := buildReverseGraph ((insertPackages infos).map (fun p =>
          (p.1, localDepsOf (insertPackages infos) p.2))) } := rfl

theorem mapKeys_map_keyed {α β : Type} (m : SMap α) (f : String × α → β) :
    mapKeys (m.map (fun p => (p.1, f p))) = mapKeys m := by
  simp [mapKeys, List.map_map]

/-- C6: in every graph produced by the builder, each node's
`localDependencies` is exactly the set of its declared dependencies that are
keys of the node map, the node's forward-edge set is that same set, and
consequently `localDependencies ⊆ declaredDependencies` with every member a
node-map key. -/
theorem buildDependencyGraph_localDependencies (infos : List PackageInfo) :
    ∀ p ∈ (buildDependencyGraph infos).packages,
      (∀ d, d ∈ (p.2 : PackageInfo).localDependencies ↔
        (d ∈ (p.2 : PackageInfo).dependencies ∧
         d ∈ mapKeys (buildDependencyGraph infos).packages)) ∧
      mapLookup (buildDependencyGraph infos).edges p.1 =
        some (p.2 : PackageInfo).localDependencies ∧
      (∀ d ∈ (p.2 : PackageInfo).localDependencies,
        d ∈ (p.2 : PackageInfo).dependencies) ∧
      (∀ d ∈ (p.2 : PackageInfo).localDependencies,
        d ∈ mapKeys (buildDependencyGraph infos).packages) := by
  intro p hp
  rw [buildDependencyGraph_eq] at hp ⊢
  simp only at hp ⊢
  obtain ⟨q, hq, hpq⟩ := List.mem_map.mp hp
  have hkeys2 : mapKeys ((insertPackages infos).map (fun p =>
      (p.1, { p.2 with localDependencies := localDepsOf (insertPackages infos) p.2 })))
      = mapKeys (insertPackages infos) :=
    mapKeys_map_keyed (insertPackages infos) _
  have hlocal : ∀ d, d ∈ localDepsOf (insertPackages infos) q.2 ↔
      (d ∈ (q.2 : PackageInfo).dependencies ∧ d ∈ mapKeys (insertPackages infos)) := by
    intro d
    unfold localDepsOf
    rw [List.mem_filter, mapHas_iff_mem_keys]
  have hmain := hlocal
  constructor
  · intro d
    rw [← hpq]
    simp only
    rw [hkeys2]
    exact hlocal d
  refine ⟨?_, ?_, ?_⟩
  · rw [← hpq]
    simp only
    have hmem : (q.1, localDepsOf (insertPackages infos) q.2) ∈
        (insertPackages infos).map (fun p =>
          (p.1, localDepsOf (insertPackages infos) p.2)) :=
      List.mem_map.mpr ⟨q, hq, rfl⟩
    have hnd : (mapKeys ((insertPackages infos).map (fun p =>
        (p.1, localDepsOf (insertPackages infos) p.2)))).Nodup := by
      rw [mapKeys_map_keyed]
      exact insertPackages_keys_nodup infos
    exact mapLookup_eq_some_of_mem_nodup hmem hnd
  · intro d hd
    rw [← hpq] at hd ⊢
    simp only at hd ⊢
    exact ((hlocal d).mp hd).1
  · intro d hd
    rw [← hpq] at hd
    simp only at hd
    rw [hkeys2]
    exact ((hlocal d).mp hd).2

/-- The node the builder produces for `b` in the two-package demo below. -/
def exPkgBBuilt : PackageInfo :=
  { name := "b", version := "1.0.0", path := "/ws/b",
    dependencies := ["a", "x"], devDependencies := [],
    localDependencies := ["a"] }

/-- Witness for C6: in a workspace where `b` declares a local dependency `a`
and an external dependency `x`, the builder records `localDependencies = [a]`. -/
theorem buildDependencyGraph_localDependencies_witness :
    ("b", exPkgBBuilt) ∈
      (buildDependencyGraph [exPkg "a" [], exPkg "b" ["a", "x"]]).packages ∧
    ((∀ d, d ∈ exPkgBBuilt.localDependencies ↔
        (d ∈ exPkgBBuilt.dependencies ∧
         d ∈ mapKeys (buildDependencyGraph [exPkg "a" [], exPkg "b" ["a", "x"]]).packages)) ∧
     mapLookup (buildDependencyGraph [exPkg "a" [], exPkg "b" ["a", "x"]]).edges "b" =
       some exPkgBBuilt.localDependencies ∧
     (∀ d ∈ exPkgBBuilt.localDependencies, d ∈ exPkgBBuilt.dependencies) ∧
     (∀ d ∈ exPkgBBuilt.localDependencies,
       d ∈ mapKeys (buildDependencyGraph [exPkg "a" [], exPkg "b" ["a", "x"]]).packages)) :=
  ⟨by decide,
   buildDependencyGraph_localDependencies [exPkg "a" [], exPkg "b" ["a", "x"]]
     ("b", exPkgBBuilt) (by decide)⟩

/-! ### The validator -/

theorem mem_foldl_append {β : Type} (F : β → List String) :
    ∀ (l : List β) (acc : List String) (e : String),
    e ∈ l.foldl (fun errs p => errs ++ F p) acc ↔ e ∈ acc ∨ ∃ p ∈ l, e ∈ F p := by
  intro l
  induction l with
  | nil => intro acc e; simp
  | cons p ps ih =>
      intro acc e
      simp only [List.foldl_cons]
      rw [ih]
      constructor
      · rintro (h | ⟨q, hq, he⟩)
        · rcases List.mem_append.mp h with h | h
          · exact Or.inl h
          · exact Or.inr ⟨p, by simp, h⟩
        · exact Or.inr ⟨q, by simp [hq], he⟩
      · rintro (h | ⟨q, hq, he⟩)
        · exact Or.inl (List.mem_append.mpr (Or.inl h))
        · rcases List.mem_cons.mp hq with rfl | hq'
          · exact Or.inl (List.mem_append.mpr (Or.inr he))
          · exact Or.inr ⟨q, hq', he⟩

theorem mem_missingTargetErrors (g : DependencyGraph) (e : String) :
    e ∈ missingTargetErrors g ↔
      ∃ p, p ∈ g.edges ∧ ∃ dep, dep ∈ (p.2 : List String) ∧
        mapHas g.packages dep = false ∧ e = missingMsg p.1 dep := by
  unfold missingTargetErrors
  rw [mem_foldl_append]
  simp only [List.mem_map, List.mem_filter, Bool.not_eq_eq_eq_not, Bool.not_true]
  constructor
  · rintro (h | ⟨p, hp, dep, ⟨hdep, hmiss⟩, he⟩)
    · simp at h
    · exact ⟨p, hp, dep, hdep, hmiss, he.symm⟩
  · rintro ⟨p, hp, dep, hdep, hmiss, he⟩
    exact Or.inr ⟨p, hp, dep, ⟨hdep, hmiss⟩, he.symm⟩

/-- C5: `validateGraph` is a total function returning `(valid, errors)`
(never throws); the error list is the missing-target errors, in edge-map
iteration order, followed by at most one error captured from the cycle
check; a string is a missing-target error exactly when some edge entry has
a target absent from the node map, and the error names both the source and
the target; and `valid` is `true` iff the error list is empty. -/
theorem validateGraph_spec (g : DependencyGraph) :
    ((validateGraph g).1 = true ↔ (validateGraph g).2 = []) ∧
    (∃ tail, (validateGraph g).2 = missingTargetErrors g ++ tail ∧
      tail.length ≤ 1 ∧
      (∀ e ∈ tail, topologicalSort g = Except.error e) ∧
      (∀ e, topologicalSort g = Except.error e → tail = [e])) ∧
    (∀ e, e ∈ missingTargetErrors g ↔
      ∃ p, p ∈ g.edges ∧ ∃ dep, dep ∈ (p.2 : List String) ∧
        mapHas g.packages dep = false ∧ e = missingMsg p.1 dep) := by
  refine ⟨?_, ?_, fun e => mem_missingTargetErrors g e⟩
  · unfold validateGraph
    cases htop : topologicalSort g <;>
      simp [List.isEmpty_iff]
  · unfold validateGraph
    cases htop : topologicalSort g with
    | error e =>
        refine ⟨[e], by simp, by simp, by simp, ?_⟩
        intro e' he'
        simp at he'
        simp [he']
    | ok r => exact ⟨[], by simp, by simp, by simp, by simp⟩

/-! ### Topological sort: invariants of the DFS -/

/-- Every result element's forward targets already stand earlier in the result. -/
def Ordered (edges : SMap (List String)) (st : SortState) : Prop :=
  ∀ a ∈ st.result, ∀ b ∈ depsOf edges a,
    b ∈ st.result ∧ st.result.indexOf b < st.result.indexOf a

/-- The sort's loop invariant: the result lists exactly the visited set,
without duplicates, and respects the forward edges. -/
def SortInv (edges : SMap (List String)) (st : SortState) : Prop :=
  (∀ x, x ∈ st.result ↔ x ∈ st.visited) ∧ st.result.Nodup ∧ Ordered edges st

/-- What one successful visit step does to the state. -/
def StepOk (edges : SMap (List String)) (st st' : SortState) : Prop :=
  st'.visiting = st.visiting ∧
  st.visited ⊆ st'.visited ∧
  (∃ t, st'.result = st.result ++ t) ∧
  (∀ x, x ∈ st.visiting → x ∉ st.visited → x ∉ st'.visited) ∧
  (SortInv edges st → SortInv edges st')

theorem StepOk_rfl (edges : SMap (List String)) (st : SortState) :
    StepOk edges st st :=
  ⟨rfl, Finset.Subset.refl _, ⟨[], by simp⟩, fun _ _ h => h, fun h => h⟩

theorem StepOk_comp {edges : SMap (List String)} {st st₁ st' : SortState}
    (h1 : StepOk edges st st₁) (h2 : StepOk edges st₁ st') : StepOk edges st st' := by
  obtain ⟨e1, s1, ⟨t1, r1⟩, a1, i1⟩ := h1
  obtain ⟨e2, s2, ⟨t2, r2⟩, a2, i2⟩ := h2
  refine ⟨e2.trans e1, s1.trans s2, ⟨t1 ++ t2, by rw [r2, r1, List.append_assoc]⟩,
    ?_, fun h => i2 (i1 h)⟩
  intro x hxV hxNV
  have hx1 : x ∉ st₁.visited := a1 x hxV hxNV
  exact a2 x (e1 ▸ hxV) hx1

theorem indexOf_concat_self {l : List String} {a : String} (h : a ∉ l) :
    (l ++ [a]).indexOf a = l.length := by
  rw [List.indexOf_append_of_not_mem h]
  simp

theorem Ordered_push {edges : SMap (List String)} {vres : List String} {name : String}
    (hord : ∀ a ∈ vres, ∀ b ∈ depsOf edges a,
      b ∈ vres ∧ vres.indexOf b < vres.indexOf a)
    (hdeps : ∀ b ∈ depsOf edges name, b ∈ vres)
    (hfresh : name ∉ vres) :
    ∀ a ∈ vres ++ [name], ∀ b ∈ depsOf edges a,
      b ∈ vres ++ [name] ∧ (vres ++ [name]).indexOf b < (vres ++ [name]).indexOf a := by
  intro a ha b hb
  rcases List.mem_append.mp ha with ha' | ha'
  · obtain ⟨hbm, hbi⟩ := hord a ha' b hb
    refine ⟨List.mem_append.mpr (Or.inl hbm), ?_⟩
    rw [List.indexOf_append_of_mem hbm, List.indexOf_append_of_mem ha']
    exact hbi
  · have haname : a = name := by simpa using ha'
    subst haname
    have hbm : b ∈ vres := hdeps b hb
    refine ⟨List.mem_append.mpr (Or.inl hbm), ?_⟩
    rw [List.indexOf_append_of_mem hbm, indexOf_concat_self hfresh]
    exact List.indexOf_lt_length.mpr hbm

theorem visit_succ_eq (edges : SMap (List String)) (n : Nat) (name : String)
    (st : SortState) :
    visit edges (Nat.succ n) name st =
      if name ∈ st.visited then some (Except.ok st)
      else if name ∈ st.visiting then some (Except.error (cycleMsg name))
      else
        match runList (visit edges n) (depsOf edges name)
            { st with visiting := st.visiting ++ [name] } with
        | none => none
        | some (Except.error e) => some (Except.error e)
        | some (Except.ok st') =>
            some (Except.ok
              { visited := insert name st'.visited,
                visiting := st'.visiting.erase name,
                result := st'.result ++ [name] }) := rfl

theorem visit_runList_ok (edges : SMap (List String)) :
    ∀ n : Nat,
    (∀ name st st', visit edges n name st = some (Except.ok st') →
      StepOk edges st st' ∧ name ∈ st'.visited ∧
      (∀ x, x ∈ st'.visited → x ∈ st.visited ∨ x = name ∨ ∃ a, x ∈ depsOf edges a)) ∧
    (∀ ds st st', runList (visit edges n) ds st = some (Except.ok st') →
      StepOk edges st st' ∧ (∀ d ∈ ds, d ∈ st'.visited) ∧
      (∀ x, x ∈ st'.visited → x ∈ st.visited ∨ x ∈ ds ∨ ∃ a, x ∈ depsOf edges a)) := by
  intro n
  induction n with
  | zero =>
      constructor
      · intro name st st' h
        simp [visit] at h
      · intro ds st st' h
        cases ds with
        | nil =>
            simp [runList] at h
            subst h
            exact ⟨StepOk_rfl edges st, by simp, fun x hx => Or.inl hx⟩
        | cons d ds => simp [runList, visit] at h
  | succ n ih =>
      obtain ⟨ihv, ihl⟩ := ih
      have hv : ∀ name st st', visit edges (Nat.succ n) name st = some (Except.ok st') →
          StepOk edges st st' ∧ name ∈ st'.visited ∧
          (∀ x, x ∈ st'.visited → x ∈ st.visited ∨ x = name ∨ ∃ a, x ∈ depsOf edges a) := by
        intro name st st' h
        rw [visit_succ_eq] at h
        split_ifs at h with h1 h2
        · simp only [Option.some.injEq, Except.ok.injEq] at h
          subst h
          exact ⟨StepOk_rfl edges st, h1, fun x hx => Or.inl hx⟩
        · simp at h
        · cases hrl : runList (visit edges n) (depsOf edges name)
              { st with visiting := st.visiting ++ [name] } with
          | none => rw [hrl] at h; simp at h
          | some exc =>
              rw [hrl] at h
              cases exc with
              | error e => simp at h
              | ok st'' =>
                  simp only [Option.some.injEq, Except.ok.injEq] at h
                  obtain ⟨⟨he, hsub, ⟨t, ht⟩, havoid, hinv⟩, hdeps, horig⟩ :=
                    ihl (depsOf edges name) _ _ hrl
                  have hnameV1 : name ∈ st.visiting ++ [name] := by simp
                  have hnamev : name ∉ st''.visited := havoid name hnameV1 h1
                  subst h
                  refine ⟨⟨?_, ?_, ?_, ?_, ?_⟩, ?_, ?_⟩
                  · show st''.visiting.erase name = st.visiting
                    rw [he]
                    show (st.visiting ++ [name]).erase name = st.visiting
                    rw [List.erase_append_right _ h2]
                    simp
                  · exact fun x hx => Finset.mem_insert_of_mem (hsub hx)
                  · exact ⟨t ++ [name], by
                      show st''.result ++ [name] = st.result ++ (t ++ [name])
                      rw [ht, List.append_assoc]⟩
                  · intro x hxV hxNV
                    rw [Finset.mem_insert]
                    push_neg
                    constructor
                    · intro he'
                      subst he'
                      exact h2 hxV
                    · exact havoid x (by simp [hxV]) hxNV
                  · intro hsi
                    obtain ⟨hmem, hnd, hord⟩ := hinv hsi
                    have hnamer : name ∉ st''.result := fun hc => hnamev ((hmem name).mp hc)
                    refine ⟨?_, ?_, ?_⟩
                    · intro x
                      show x ∈ st''.result ++ [name] ↔ x ∈ insert name st''.visited
                      rw [List.mem_append, List.mem_singleton, Finset.mem_insert, hmem x]
                      tauto
                    · show (st''.result ++ [name]).Nodup
                      rw [List.nodup_append]
                      exact ⟨hnd, by simp,
                        fun x hx hx' => hnamer ((List.mem_singleton.mp hx') ▸ hx)⟩
                    · show Ordered edges _
                      intro a ha b hb
                      exact Ordered_push hord
                        (fun b' hb' => (hmem b').mpr (hdeps b' hb')) hnamer a ha b hb
                  · exact Finset.mem_insert_self name st''.visited
                  · intro x hx
                    rcases Finset.mem_insert.mp hx with he' | hx'
                    · exact Or.inr (Or.inl he')
                    · rcases horig x hx' with hc | hc | hc
                      · exact Or.inl hc
                      · exact Or.inr (Or.inr ⟨name, hc⟩)
                      · exact Or.inr (Or.inr hc)
      refine ⟨hv, ?_⟩
      intro ds
      induction ds with
      | nil =>
          intro st st' h
          simp [runList] at h
          subst h
          exact ⟨StepOk_rfl edges st, by simp, fun x hx => Or.inl hx⟩
      | cons d ds ihds =>
          intro st st' h
          cases hv1 : visit edges (Nat.succ n) d st with
          | none => rw [runList, hv1] at h; simp at h
          | some exc =>
              cases exc with
              | error e => rw [runList, hv1] at h; simp at h
              | ok st₁ =>
                  rw [runList, hv1] at h
                  obtain ⟨hso1, hd1, ho1⟩ := hv d st st₁ hv1
                  obtain ⟨hso2, hd2, ho2⟩ := ihds st₁ st' h
                  refine ⟨StepOk_comp hso1 hso2, ?_, ?_⟩
                  · intro d' hd'
                    rcases List.mem_cons.mp hd' with rfl | hd''
                    · exact hso2.2.1 hd1
                    · exact hd2 d' hd''
                  · intro x hx
                    rcases ho2 x hx with hc | hc | hc
                    · rcases ho1 x hc with hc' | hc' | hc'
                      · exact Or.inl hc'
                      · exact Or.inr (Or.inl (by simp [hc']))
                      · exact Or.inr (Or.inr hc')
                    · exact Or.inr (Or.inl (by simp [hc]))
                    · exact Or.inr (Or.inr hc)

/-! ### Topological sort: fuel sufficiency -/

theorem sdiff_insert_card {A S : Finset String} {a : String}
    (ha : a ∈ A) (hm : a ∉ S) :
    (A \ insert a S).card = (A \ S).card - 1 ∧ 0 < (A \ S).card := by
  have hmm : a ∈ A \ S := Finset.mem_sdiff.mpr ⟨ha, hm⟩
  have he : A \ insert a S = (A \ S).erase a := by
    ext x
    simp only [Finset.mem_sdiff, Finset.mem_insert, Finset.mem_erase]
    tauto
  rw [he, Finset.card_erase_of_mem hmm]
  exact ⟨rfl, Finset.card_pos.mpr ⟨a, hmm⟩⟩

theorem visit_runList_ne_none (edges : SMap (List String)) (A : Finset String)
    (hA : ∀ x b, b ∈ depsOf edges x → b ∈ A) :
    ∀ n : Nat,
    (∀ name st, name ∈ A → (∀ x ∈ st.visiting, x ∈ A) → st.visiting.Nodup →
      (A \ st.visiting.toFinset).card < n → visit edges n name st ≠ none) ∧
    (∀ ds st, (∀ d ∈ ds, d ∈ A) → (∀ x ∈ st.visiting, x ∈ A) → st.visiting.Nodup →
      (A \ st.visiting.toFinset).card < n → runList (visit edges n) ds st ≠ none) := by
  intro n
  induction n with
  | zero =>
      exact ⟨fun name st _ _ _ hcard => absurd hcard (Nat.not_lt_zero _),
        fun ds st _ _ _ hcard => absurd hcard (Nat.not_lt_zero _)⟩
  | succ n ih =>
      obtain ⟨ihv, ihl⟩ := ih
      have hvn : ∀ name st, name ∈ A → (∀ x ∈ st.visiting, x ∈ A) →
          st.visiting.Nodup → (A \ st.visiting.toFinset).card < Nat.succ n →
          visit edges (Nat.succ n) name st ≠ none := by
        intro name st hnA hvA hvnd hcard
        rw [visit_succ_eq]
        split_ifs with h1 h2
        · simp
        · simp
        · have hnm : name ∉ st.visiting.toFinset := by simpa using h2
          have hins : (st.visiting ++ [name]).toFinset =
              insert name st.visiting.toFinset := by
            ext x
            simp [or_comm]
          obtain ⟨hc1, hc2⟩ := sdiff_insert_card hnA hnm
          have hcard1 : (A \ (st.visiting ++ [name]).toFinset).card < n := by
            rw [hins, hc1]
            omega
          have hvA1 : ∀ x ∈ st.visiting ++ [name], x ∈ A := by
            intro x hx
            rcases List.mem_append.mp hx with hx' | hx'
            · exact hvA x hx'
            · rw [List.mem_singleton.mp hx']
              exact hnA
          have hvnd1 : (st.visiting ++ [name]).Nodup := by
            rw [List.nodup_append]
            exact ⟨hvnd, by simp, fun x hx hx' => h2 ((List.mem_singleton.mp hx') ▸ hx)⟩
          cases hrl : runList (visit edges n) (depsOf edges name)
              { st with visiting := st.visiting ++ [name] } with
          | none =>
              exact absurd hrl (ihl (depsOf edges name) _
                (fun d hd => hA name d hd) hvA1 hvnd1 hcard1)
          | some exc => cases exc <;> simp
      refine ⟨hvn, ?_⟩
      intro ds
      induction ds with
      | nil => intro st _ _ _ _; simp [runList]
      | cons d ds ihds =>
          intro st hdA hvA hvnd hcard
          cases hv1 : visit edges (Nat.succ n) d st with
          | none => exact absurd hv1 (hvn d st (hdA d (by simp)) hvA hvnd hcard)
          | some exc =>
              cases exc with
              | error e => rw [runList, hv1]; simp
              | ok st₁ =>
                  rw [runList, hv1]
                  have heq : st₁.visiting = st.visiting :=
                    ((visit_runList_ok edges (Nat.succ n)).1 d st st₁ hv1).1.1
                  exact ihds st₁ (fun d' hd' => hdA d' (by simp [hd']))
                    (heq ▸ hvA) (heq ▸ hvnd) (heq ▸ hcard)

/-! ### Topological sort: a reported error names a node on a cycle -/

/-- The next node to visit is a forward target of the deepest in-progress node. -/
def LinkTo (edges : SMap (List String)) (l : List String) (name : String) : Prop :=
  ∀ p, l.getLast? = some p → EdgeStep edges p name

theorem chain'_reach_getLast? {R : String → String → Prop} :
    ∀ (l : List String) (a c : String), List.Chain' R (a :: l) →
    (a :: l).getLast? = some c → Relation.ReflTransGen R a c := by
  intro l
  induction l with
  | nil =>
      intro a c _ hl
      simp at hl
      rw [hl]
  | cons b l ihl =>
      intro a c hch hl
      rw [List.chain'_cons] at hch
      have hl' : (b :: l).getLast? = some c := by
        rw [List.getLast?_cons_cons] at hl
        exact hl
      exact Relation.ReflTransGen.head hch.1 (ihl b c hch.2 hl')

theorem visit_runList_error (edges : SMap (List String)) :
    ∀ n : Nat,
    (∀ name st e, List.Chain' (EdgeStep edges) st.visiting →
      LinkTo edges st.visiting name →
      visit edges n name st = some (Except.error e) →
      ∃ c, e = cycleMsg c ∧ Relation.TransGen (EdgeStep edges) c c) ∧
    (∀ ds st e, List.Chain' (EdgeStep edges) st.visiting →
      (∀ d ∈ ds, LinkTo edges st.visiting d) →
      runList (visit edges n) ds st = some (Except.error e) →
      ∃ c, e = cycleMsg c ∧ Relation.TransGen (EdgeStep edges) c c) := by
  intro n
  induction n with
  | zero =>
      constructor
      · intro name st e _ _ h
        simp [visit] at h
      · intro ds st e _ _ h
        cases ds with
        | nil => simp [runList] at h
        | cons d ds => simp [runList, visit] at h
  | succ n ih =>
      obtain ⟨ihv, ihl⟩ := ih
      have hve : ∀ name st e, List.Chain' (EdgeStep edges) st.visiting →
          LinkTo edges st.visiting name →
          visit edges (Nat.succ n) name st = some (Except.error e) →
          ∃ c, e = cycleMsg c ∧ Relation.TransGen (EdgeStep edges) c c := by
        intro name st e hch hlink h
        rw [visit_succ_eq] at h
        split_ifs at h with h1 h2
        · simp at h
        · simp only [Option.some.injEq, Except.error.injEq] at h
          obtain ⟨s, t, hst⟩ := List.append_of_mem h2
          have hch2 : List.Chain' (EdgeStep edges) (name :: t) :=
            (List.chain'_append.mp (hst ▸ hch)).2.1
          cases hgl : (name :: t).getLast? with
          | none => simp at hgl
          | some c' =>
              have hreach : Relation.ReflTransGen (EdgeStep edges) name c' :=
                chain'_reach_getLast? t name c' hch2 hgl
              have hstep : EdgeStep edges c' name := by
                apply hlink c'
                rw [hst, List.getLast?_append_cons]
                exact hgl
              exact ⟨name, h.symm, Relation.TransGen.tail' hreach hstep⟩
        · cases hrl : runList (visit edges n) (depsOf edges name)
              { st with visiting := st.visiting ++ [name] } with
          | none => rw [hrl] at h; simp at h
          | some exc =>
              rw [hrl] at h
              cases exc with
              | ok st'' => simp at h
              | error e' =>
                  simp only [Option.some.injEq, Except.error.injEq] at h
                  subst h
                  apply ihl (depsOf edges name)
                    { st with visiting := st.visiting ++ [name] } e'
                  · show List.Chain' (EdgeStep edges) (st.visiting ++ [name])
                    rw [List.chain'_append]
                    refine ⟨hch, List.chain'_singleton name, ?_⟩
                    intro x hx y hy
                    have hyn : name = y := by simpa using hy
                    subst hyn
                    exact hlink x hx
                  · intro d hd p hp
                    have hpn : p = name := by
                      rw [show ({ st with visiting := st.visiting ++ [name] } :
                            SortState).visiting = st.visiting ++ [name] from rfl,
                          List.getLast?_concat] at hp
                      exact (Option.some.injEq _ _ ▸ hp).symm
                    rw [hpn]
                    exact hd
                  · exact hrl
      refine ⟨hve, ?_⟩
      intro ds
      induction ds with
      | nil => intro st e _ _ h; simp [runList] at h
      | cons d ds ihds =>
          intro st e hch hlinks h
          cases hv1 : visit edges (Nat.succ n) d st with
          | none => rw [runList, hv1] at h; simp at h
          | some exc =>
              cases exc with
              | error e' =>
                  rw [runList, hv1] at h
                  simp only [Option.some.injEq, Except.error.injEq] at h
                  subst h
                  exact hve d st e' hch (hlinks d (by simp)) hv1
              | ok st₁ =>
                  rw [runList, hv1] at h
                  have heq : st₁.visiting = st.visiting :=
                    ((visit_runList_ok edges (Nat.succ n)).1 d st st₁ hv1).1.1
                  exact ihds st₁ e (heq ▸ hch)
                    (fun d' hd' => heq ▸ hlinks d' (by simp [hd'])) h

/-! ### Topological sort: the root loop and the top-level theorems -/

theorem sortLoop_ok (edges : SMap (List String)) (fuel : Nat) :
    ∀ ks st st', sortLoop edges fuel ks st = some (Except.ok st') →
      StepOk edges st st' ∧ (∀ k ∈ ks, k ∈ st'.visited) ∧
      (∀ x, x ∈ st'.visited → x ∈ st.visited ∨ x ∈ ks ∨ ∃ a, x ∈ depsOf edges a) := by
  intro ks
  induction ks with
  | nil =>
      intro st st' h
      simp [sortLoop] at h
      subst h
      exact ⟨StepOk_rfl edges st, by simp, fun x hx => Or.inl hx⟩
  | cons k ks ihks =>
      intro st st' h
      rw [sortLoop] at h
      split_ifs at h with h1
      · obtain ⟨hso, hks, horig⟩ := ihks st st' h
        refine ⟨hso, ?_, ?_⟩
        · intro k' hk'
          rcases List.mem_cons.mp hk' with rfl | hk''
          · exact hso.2.1 h1
          · exact hks k' hk''
        · intro x hx
          rcases horig x hx with hc | hc | hc
          · exact Or.inl hc
          · exact Or.inr (Or.inl (by simp [hc]))
          · exact Or.inr (Or.inr hc)
      · cases hv1 : visit edges fuel k st with
        | none => rw [hv1] at h; simp at h
        | some exc =>
            rw [hv1] at h
            cases exc with
            | error e => simp at h
            | ok st₁ =>
                obtain ⟨hso1, hk1, ho1⟩ := (visit_runList_ok edges fuel).1 k st st₁ hv1
                obtain ⟨hso2, hks2, ho2⟩ := ihks st₁ st' h
                refine ⟨StepOk_comp hso1 hso2, ?_, ?_⟩
                · intro k' hk'
                  rcases List.mem_cons.mp hk' with rfl | hk''
                  · exact hso2.2.1 hk1
                  · exact hks2 k' hk''
                · intro x hx
                  rcases ho2 x hx with hc | hc | hc
                  · rcases ho1 x hc with hc' | hc' | hc'
                    · exact Or.inl hc'
                    · exact Or.inr (Or.inl (by simp [hc']))
                    · exact Or.inr (Or.inr hc')
                  · exact Or.inr (Or.inl (by simp [hc]))
                  · exact Or.inr (Or.inr hc)

theorem sortLoop_ne_none (edges : SMap (List String)) (A : Finset String)
    (hA : ∀ x b, b ∈ depsOf edges x → b ∈ A) (fuel : Nat) :
    ∀ ks st, (∀ k ∈ ks, k ∈ A) → (∀ x ∈ st.visiting, x ∈ A) → st.visiting.Nodup →
    (A \ st.visiting.toFinset).card < fuel → sortLoop edges fuel ks st ≠ none := by
  intro ks
  induction ks with
  | nil => intro st _ _ _ _; simp [sortLoop]
  | cons k ks ihks =>
      intro st hks hvA hvnd hcard
      rw [sortLoop]
      split_ifs with h1
      · exact ihks st (fun k' hk' => hks k' (by simp [hk'])) hvA hvnd hcard
      · cases hv1 : visit edges fuel k st with
        | none =>
            exact absurd hv1 ((visit_runList_ne_none edges A hA fuel).1 k st
              (hks k (by simp)) hvA hvnd hcard)
        | some exc =>
            cases exc with
            | error e => simp
            | ok st₁ =>
                have heq : st₁.visiting = st.visiting :=
                  ((visit_runList_ok edges fuel).1 k st st₁ hv1).1.1
                exact ihks st₁ (fun k' hk' => hks k' (by simp [hk']))
                  (heq ▸ hvA) (heq ▸ hvnd) (heq ▸ hcard)

theorem sortLoop_error (edges : SMap (List String)) (fuel : Nat) :
    ∀ ks st e, st.visiting = [] →
    sortLoop edges fuel ks st = some (Except.error e) →
    ∃ c, e = cycleMsg c ∧ Relation.TransGen (EdgeStep edges) c c := by
  intro ks
  induction ks with
  | nil => intro st e _ h; simp [sortLoop] at h
  | cons k ks ihks =>
      intro st e hve h
      rw [sortLoop] at h
      split_ifs at h with h1
      · exact ihks st e hve h
      · cases hv1 : visit edges fuel k st with
        | none => rw [hv1] at h; simp at h
        | some exc =>
            rw [hv1] at h
            cases exc with
            | error e' =>
                simp only [Option.some.injEq, Except.error.injEq] at h
                subst h
                apply (visit_runList_error edges fuel).1 k st e' ?_ ?_ hv1
                · rw [hve]
                  exact List.chain'_nil
                · intro p hp
                  rw [hve] at hp
                  simp at hp
            | ok st₁ =>
                have heq : st₁.visiting = st.visiting :=
                  ((visit_runList_ok edges fuel).1 k st st₁ hv1).1.1
                exact ihks st₁ e (heq ▸ hve) h

theorem SortInv_init (edges : SMap (List String)) : SortInv edges initSortState :=
  ⟨by simp [initSortState], by simp [initSortState],
   by intro a ha; simp [initSortState] at ha⟩

theorem mem_edgeTargets :
    ∀ {E : SMap (List String)} {p : String × List String}, p ∈ E →
    ∀ {b : String}, b ∈ p.2 → b ∈ edgeTargets E := by
  intro E
  induction E with
  | nil => intro p hp; simp at hp
  | cons q rest ih =>
      intro p hp b hb
      have hstep : edgeTargets (q :: rest) = q.2.toFinset ∪ edgeTargets rest := rfl
      rw [hstep, Finset.mem_union]
      rcases List.mem_cons.mp hp with rfl | hp'
      · exact Or.inl (List.mem_toFinset.mpr hb)
      · exact Or.inr (ih hp' hb)

theorem depsOf_target_mem_edgeTargets {E : SMap (List String)} {x b : String}
    (h : b ∈ depsOf E x) : b ∈ edgeTargets E := by
  unfold depsOf at h
  cases hl : mapLookup E x with
  | none => rw [hl] at h; simp at h
  | some deps =>
      rw [hl] at h
      exact mem_edgeTargets (mem_of_mapLookup_eq_some hl) h

theorem depsOf_mem_sortNames (g : DependencyGraph) :
    ∀ x b, b ∈ depsOf g.edges x → b ∈ sortNames g := by
  intro x b hb
  unfold sortNames
  rw [Finset.mem_union]
  exact Or.inr (depsOf_target_mem_edgeTargets hb)

theorem sortLoop_init_ne_none (g : DependencyGraph) :
    sortLoop g.edges (sortFuel g) (mapKeys g.packages) initSortState ≠ none := by
  apply sortLoop_ne_none g.edges (sortNames g) (depsOf_mem_sortNames g)
  · intro k hk
    unfold sortNames
    rw [Finset.mem_union, Finset.mem_union]
    exact Or.inl (Or.inl (List.mem_toFinset.mpr hk))
  · intro x hx
    simp [initSortState] at hx
  · simp [initSortState]
  · show (sortNames g \ (List.toFinset [])).card < sortFuel g
    rw [show (List.toFinset [] : Finset String) = ∅ from rfl, Finset.sdiff_empty]
    exact Nat.lt_succ_self _

theorem topologicalSort_ok_spec {g : DependencyGraph} {r : List String}
    (hok : topologicalSort g = Except.ok r) :
    r.Nodup ∧ (∀ k ∈ mapKeys g.packages, k ∈ r) ∧
    (∀ x ∈ r, x ∈ mapKeys g.packages ∨ ∃ a, x ∈ depsOf g.edges a) ∧
    (∀ a ∈ r, ∀ b ∈ depsOf g.edges a, b ∈ r ∧ r.indexOf b < r.indexOf a) := by
  unfold topologicalSort at hok
  cases hsl : sortLoop g.edges (sortFuel g) (mapKeys g.packages) initSortState with
  | none => exact absurd hsl (sortLoop_init_ne_none g)
  | some exc =>
      rw [hsl] at hok
      cases exc with
      | error e => simp at hok
      | ok st' =>
          simp only [Except.ok.injEq] at hok
          subst hok
          obtain ⟨⟨_, _, _, _, hinv⟩, hks, horig⟩ :=
            sortLoop_ok g.edges (sortFuel g) (mapKeys g.packages) initSortState st' hsl
          obtain ⟨hmem, hnd, hord⟩ := hinv (SortInv_init g.edges)
          refine ⟨hnd, ?_, ?_, hord⟩
          · intro k hk
            exact (hmem k).mpr (hks k hk)
          · intro x hx
            rcases horig x ((hmem x).mp hx) with hc | hc | hc
            · simp [initSortState] at hc
            · exact Or.inl hc
            · exact Or.inr hc

theorem topologicalSort_error_cycle {g : DependencyGraph} {e : String}
    (herr : topologicalSort g = Except.error e) :
    ∃ c, e = cycleMsg c ∧ Relation.TransGen (EdgeStep g.edges) c c := by
  unfold topologicalSort at herr
  cases hsl : sortLoop g.edges (sortFuel g) (mapKeys g.packages) initSortState with
  | none => exact absurd hsl (sortLoop_init_ne_none g)
  | some exc =>
      rw [hsl] at herr
      cases exc with
      | ok st' => simp at herr
      | error e' =>
          simp only [Except.error.injEq] at herr
          subst herr
          exact sortLoop_error g.edges (sortFuel g) (mapKeys g.packages)
            initSortState e' rfl hsl

theorem transGen_head_step {α : Type} {r : α → α → Prop} {x y : α}
    (h : Relation.TransGen r x y) : ∃ z, r x z := by
  induction h with
  | single h1 => exact ⟨_, h1⟩
  | tail ht hr ih => exact ih

theorem ordered_transGen {edges : SMap (List String)} {r : List String}
    (hord : ∀ a ∈ r, ∀ b ∈ depsOf edges a, b ∈ r ∧ r.indexOf b < r.indexOf a) :
    ∀ x y, Relation.TransGen (EdgeStep edges) x y → x ∈ r →
      y ∈ r ∧ r.indexOf y < r.indexOf x := by
  intro x y h
  induction h with
  | single h1 => intro hx; exact hord x hx _ h1
  | tail ht hr ih =>
      intro hx
      obtain ⟨hy, hi⟩ := ih hx
      obtain ⟨hz, hi2⟩ := hord _ hy _ hr
      exact ⟨hz, lt_trans hi2 hi⟩

theorem edge_source_mem_keys {g : DependencyGraph} (hwf : GraphWF g) {a b : String}
    (h : b ∈ depsOf g.edges a) : a ∈ mapKeys g.packages := by
  unfold depsOf at h
  cases hl : mapLookup g.edges a with
  | none => rw [hl] at h; simp at h
  | some deps =>
      apply hwf.2.2.2 a
      rw [← mapLookup_isSome_iff]
      rw [hl]
      rfl

theorem depsOf_target_mem_keys {g : DependencyGraph}
    (htgt : ∀ p ∈ g.edges, ∀ b ∈ (p.2 : List String), b ∈ mapKeys g.packages)
    {a b : String} (h : b ∈ depsOf g.edges a) : b ∈ mapKeys g.packages := by
  unfold depsOf at h
  cases hl : mapLookup g.edges a with
  | none => rw [hl] at h; simp at h
  | some deps =>
      rw [hl] at h
      exact htgt _ (mem_of_mapLookup_eq_some hl) b h

/-- C1: for every well-formed graph whose forward edges are acyclic and whose
edge targets are all node keys, `topologicalSort` succeeds with a sequence
that is a permutation of the node-map keys (every key exactly once), and for
every edge `A -> B` the target `B` appears strictly before the source `A`. -/
theorem topologicalSort_correct (g : DependencyGraph) (hwf : GraphWF g)
    (htgt : ∀ p ∈ g.edges, ∀ b ∈ (p.2 : List String), b ∈ mapKeys g.packages)
    (hacyc : ¬ HasCycle g.edges) :
    ∃ r, topologicalSort g = Except.ok r ∧ r.Perm (mapKeys g.packages) ∧
      ∀ a b, b ∈ depsOf g.edges a →
        b ∈ r ∧ a ∈ r ∧ r.indexOf b < r.indexOf a := by
  cases htop : topologicalSort g with
  | error e =>
      obtain ⟨c, _, hc⟩ := topologicalSort_error_cycle htop
      exact absurd ⟨c, hc⟩ hacyc
  | ok r =>
      obtain ⟨hnd, hkeys, horig, hord⟩ := topologicalSort_ok_spec htop
      refine ⟨r, rfl, ?_, ?_⟩
      · rw [List.perm_ext_iff_of_nodup hnd hwf.1]
        intro a
        constructor
        · intro ha
          rcases horig a ha with hc | ⟨p, hc⟩
          · exact hc
          · exact depsOf_target_mem_keys htgt hc
        · exact hkeys a
      · intro a b hb
        have har : a ∈ r := hkeys a (edge_source_mem_keys hwf hb)
        obtain ⟨hbr, hlt⟩ := hord a har b hb
        exact ⟨hbr, har, hlt⟩

/-- Witness for C1 at the spec's scenario `{a: [], b: [a], c: [a, b]}`. -/
theorem topologicalSort_correct_witness :
    (GraphWF exGraphChain ∧
     (∀ p ∈ exGraphChain.edges, ∀ b ∈ (p.2 : List String),
       b ∈ mapKeys exGraphChain.packages) ∧
     ¬ HasCycle exGraphChain.edges) ∧
    (∃ r, topologicalSort exGraphChain = Except.ok r ∧
      r.Perm (mapKeys exGraphChain.packages) ∧
      ∀ a b, b ∈ depsOf exGraphChain.edges a →
        b ∈ r ∧ a ∈ r ∧ r.indexOf b < r.indexOf a) :=
  ⟨⟨by decide, by decide, exGraphChain_acyclic⟩,
   topologicalSort_correct exGraphChain (by decide) (by decide) exGraphChain_acyclic⟩

/-- C2: for every well-formed graph whose forward edges contain a cycle,
`topologicalSort` fails with the circular-dependency error naming a node that
itself lies on a cycle (the node re-entered while in progress), and
`validateGraph` returns `valid = false` with that "Circular dependency"
message present in its error list instead of throwing. -/
theorem topologicalSort_detects_cycle (g : DependencyGraph) (hwf : GraphWF g)
    (hcyc : HasCycle g.edges) :
    ∃ node, Relation.TransGen (EdgeStep g.edges) node node ∧
      topologicalSort g = Except.error (cycleMsg node) ∧
      (validateGraph g).1 = false ∧
      cycleMsg node ∈ (validateGraph g).2 ∧
      ∃ s, cycleMsg node = "Circular dependency" ++ s := by
  cases htop : topologicalSort g with
  | ok r =>
      exfalso
      obtain ⟨v, hv⟩ := hcyc
      obtain ⟨hnd, hkeys, horig, hord⟩ := topologicalSort_ok_spec htop
      obtain ⟨z, hz⟩ := transGen_head_step hv
      have hvr : v ∈ r := hkeys v (edge_source_mem_keys hwf hz)
      obtain ⟨_, hlt⟩ := ordered_transGen hord v v hv hvr
      exact lt_irrefl _ hlt
  | error e =>
      obtain ⟨c, he, hc⟩ := topologicalSort_error_cycle htop
      subst he
      refine ⟨c, hc, rfl, ?_, ?_, ?_⟩
      · simp [validateGraph, htop]
      · simp [validateGraph, htop]
      · refine ⟨" detected involving package: " ++ c, ?_⟩
        unfold cycleMsg
        rw [← String.append_assoc]
        exact congrArg (fun s => s ++ c)
          (by decide :
            "Circular dependency detected involving package: " =
              "Circular dependency" ++ " detected involving package: ")

/-- Witness for C2 at the spec's cyclic scenario `{a: [b], b: [a]}`. -/
theorem topologicalSort_detects_cycle_witness :
    (GraphWF exGraphCyc ∧ HasCycle exGraphCyc.edges) ∧
    (∃ node, Relation.TransGen (EdgeStep exGraphCyc.edges) node node ∧
      topologicalSort exGraphCyc = Except.error (cycleMsg node) ∧
      (validateGraph exGraphCyc).1 = false ∧
      cycleMsg node ∈ (validateGraph exGraphCyc).2 ∧
      ∃ s, cycleMsg node = "Circular dependency" ++ s) :=
  ⟨⟨by decide,
    ⟨"a", Relation.TransGen.head
      (show EdgeStep exGraphCyc.edges "a" "b" by unfold EdgeStep; decide)
      (Relation.TransGen.single (show EdgeStep exGraphCyc.edges "b" "a" by unfold EdgeStep; decide))⟩⟩,
   topologicalSort_detects_cycle exGraphCyc (by decide)
     ⟨"a", Relation.TransGen.head
       (show EdgeStep exGraphCyc.edges "a" "b" by unfold EdgeStep; decide)
       (Relation.TransGen.single (show EdgeStep exGraphCyc.edges "b" "a" by unfold EdgeStep; decide))⟩⟩

/-- Counterexample for C8 as stated: in the tampered graph `{a}` with edge
`a -> b` and `b` absent from the node map, the sort's traversal does visit
`b` and the missing name does appear in the returned sequence. -/
theorem topologicalSort_missing_target_counterexample :
    ∃ r, topologicalSort exGraphMiss = Except.ok r ∧ "b" ∈ r ∧
      mapHas exGraphMiss.packages "b" = false :=
  ⟨["b", "a"], rfl, by decide, by decide⟩

/-- C8 amended: a forward edge whose target is missing from the node map
never makes the sort fail; the traversal does visit the missing target and
places it in the result strictly before its dependent (the claim's assertion
that the missing name stays out of the result is false). -/
theorem topologicalSort_visits_missing_targets (g : DependencyGraph)
    (hwf : GraphWF g) (hacyc : ¬ HasCycle g.edges) :
    ∃ r, topologicalSort g = Except.ok r ∧
      ∀ a b, b ∈ depsOf g.edges a →
        b ∈ r ∧ a ∈ r ∧ r.indexOf b < r.indexOf a := by
  cases htop : topologicalSort g with
  | error e =>
      obtain ⟨c, _, hc⟩ := topologicalSort_error_cycle htop
      exact absurd ⟨c, hc⟩ hacyc
  | ok r =>
      obtain ⟨hnd, hkeys, horig, hord⟩ := topologicalSort_ok_spec htop
      refine ⟨r, rfl, ?_⟩
      intro a b hb
      have har : a ∈ r := hkeys a (edge_source_mem_keys hwf hb)
      obtain ⟨hbr, hlt⟩ := hord a har b hb
      exact ⟨hbr, har, hlt⟩

/-- Witness for the amended C8 at the tampered one-node graph. -/
theorem topologicalSort_visits_missing_targets_witness :
    (GraphWF exGraphMiss ∧ ¬ HasCycle exGraphMiss.edges) ∧
    (∃ r, topologicalSort exGraphMiss = Except.ok r ∧
      ∀ a b, b ∈ depsOf exGraphMiss.edges a →
        b ∈ r ∧ a ∈ r ∧ r.indexOf b < r.indexOf a) :=
  ⟨⟨by decide, exGraphMiss_acyclic⟩,
   topologicalSort_visits_missing_targets exGraphMiss (by decide) exGraphMiss_acyclic⟩

/-! ### Transitive dependents -/

theorem traverse_succ_eq (rev : SMap (List String)) (n : Nat) (pkg : String)
    (st : DepState) :
    traverse rev (Nat.succ n) pkg st =
      if pkg ∈ st.visited then some st
      else travList (traverse rev n) (depsOf rev pkg)
            { st with visited := insert pkg st.visited } := rfl

theorem traverse_travList_ok (rev : SMap (List String)) :
    ∀ n : Nat,
    (∀ pkg st st', traverse rev n pkg st = some st' →
      st.visited ⊆ st'.visited ∧ st.dependents ⊆ st'.dependents ∧ pkg ∈ st'.visited ∧
      (∀ x, x ∈ st'.dependents → x ∈ st.dependents ∨
        Relation.TransGen (EdgeStep rev) pkg x) ∧
      (∀ x, x ∈ st'.visited → x ∉ st.visited →
        ∀ e ∈ depsOf rev x, e ∈ st'.visited ∧ e ∈ st'.dependents) ∧
      ((∀ x ∈ st.dependents, x ∈ st.visited ∨ x = pkg) →
        ∀ x ∈ st'.dependents, x ∈ st'.visited)) ∧
    (∀ ds st st', travList (traverse rev n) ds st = some st' →
      st.visited ⊆ st'.visited ∧ st.dependents ⊆ st'.dependents ∧
      (∀ d ∈ ds, d ∈ st'.visited ∧ d ∈ st'.dependents) ∧
      (∀ x, x ∈ st'.dependents → x ∈ st.dependents ∨
        ∃ d ∈ ds, Relation.ReflTransGen (EdgeStep rev) d x) ∧
      (∀ x, x ∈ st'.visited → x ∉ st.visited →
        ∀ e ∈ depsOf rev x, e ∈ st'.visited ∧ e ∈ st'.dependents) ∧
      ((∀ x ∈ st.dependents, x ∈ st.visited) →
        ∀ x ∈ st'.dependents, x ∈ st'.visited)) := by
  intro n
  induction n with
  | zero =>
      constructor
      · intro pkg st st' h
        simp [traverse] at h
      · intro ds st st' h
        cases ds with
        | nil =>
            simp [travList] at h
            subst h
            exact ⟨Finset.Subset.refl _, Finset.Subset.refl _, by simp,
              fun x hx => Or.inl hx, fun x hx hnx => absurd hx hnx, fun h' => h'⟩
        | cons d ds => simp [travList, traverse] at h
  | succ n ih =>
      obtain ⟨ihv, ihl⟩ := ih
      have hv : ∀ pkg st st', traverse rev (Nat.succ n) pkg st = some st' →
          st.visited ⊆ st'.visited ∧ st.dependents ⊆ st'.dependents ∧
          pkg ∈ st'.visited ∧
          (∀ x, x ∈ st'.dependents → x ∈ st.dependents ∨
            Relation.TransGen (EdgeStep rev) pkg x) ∧
          (∀ x, x ∈ st'.visited → x ∉ st.visited →
            ∀ e ∈ depsOf rev x, e ∈ st'.visited ∧ e ∈ st'.dependents) ∧
          ((∀ x ∈ st.dependents, x ∈ st.visited ∨ x = pkg) →
            ∀ x ∈ st'.dependents, x ∈ st'.visited) := by
        intro pkg st st' h
        rw [traverse_succ_eq] at h
        split_ifs at h with h1
        · simp only [Option.some.injEq] at h
          subst h
          refine ⟨Finset.Subset.refl _, Finset.Subset.refl _, h1,
            fun x hx => Or.inl hx, fun x hx hnx => absurd hx hnx, ?_⟩
          intro hyp x hx
          rcases hyp x hx with hc | rfl
          · exact hc
          · exact h1
        · obtain ⟨hvm, hdm, hds, hdsnd, hcl, himp⟩ :=
            ihl (depsOf rev pkg) { st with visited := insert pkg st.visited } st' h
          refine ⟨?_, hdm, ?_, ?_, ?_, ?_⟩
          · exact fun x hx => hvm (Finset.mem_insert_of_mem hx)
          · exact hvm (Finset.mem_insert_self pkg st.visited)
          · intro x hx
            rcases hdsnd x hx with hc | ⟨d, hd, hrtg⟩
            · exact Or.inl hc
            · exact Or.inr (Relation.TransGen.head' hd hrtg)
          · intro x hx hnx
            by_cases hx1 : x ∈ (insert pkg st.visited : Finset String)
            · have hxp : x = pkg := by
                rcases Finset.mem_insert.mp hx1 with he | hc
                · exact he
                · exact absurd hc hnx
              subst hxp
              intro e he
              exact hds e he
            · exact hcl x hx hx1
          · intro hyp
            apply himp
            intro x hx
            rcases hyp x hx with hc | rfl
            · exact Finset.mem_insert_of_mem hc
            · exact Finset.mem_insert_self x st.visited
      refine ⟨hv, ?_⟩
      intro ds
      induction ds with
      | nil =>
          intro st st' h
          simp [travList] at h
          subst h
          exact ⟨Finset.Subset.refl _, Finset.Subset.refl _, by simp,
            fun x hx => Or.inl hx, fun x hx hnx => absurd hx hnx, fun h' => h'⟩
      | cons d ds ihds =>
          intro st st' h
          rw [travList] at h
          cases hv1 : traverse rev (Nat.succ n) d
              { st with dependents := insert d st.dependents } with
          | none => rw [hv1] at h; simp at h
          | some st₁ =>
              rw [hv1] at h
              obtain ⟨hvm1, hdm1, hd1, hds1, hcl1, himp1⟩ := hv d _ st₁ hv1
              obtain ⟨hvm2, hdm2, hd2, hds2, hcl2, himp2⟩ := ihds st₁ st' h
              refine ⟨hvm1.trans hvm2, ?_, ?_, ?_, ?_, ?_⟩
              · exact fun x hx =>
                  hdm2 (hdm1 (Finset.mem_insert_of_mem hx))
              · intro d' hd'
                rcases List.mem_cons.mp hd' with rfl | hd''
                · exact ⟨hvm2 hd1, hdm2 (hdm1 (Finset.mem_insert_self d' _))⟩
                · exact hd2 d' hd''
              · intro x hx
                rcases hds2 x hx with hc | ⟨d', hd', hrtg⟩
                · rcases hds1 x hc with hc' | hc'
                  · rcases Finset.mem_insert.mp hc' with rfl | hc''
                    · exact Or.inr ⟨x, by simp, Relation.ReflTransGen.refl⟩
                    · exact Or.inl hc''
                  · exact Or.inr ⟨d, by simp, hc'.to_reflTransGen⟩
                · exact Or.inr ⟨d', by simp [hd'], hrtg⟩
              · intro x hx hnx
                by_cases hx1 : x ∈ st₁.visited
                · exact fun e he => ⟨hvm2 (hcl1 x hx1 hnx e he).1,
                    hdm2 (hcl1 x hx1 hnx e he).2⟩
                · exact hcl2 x hx hx1
              · intro hyp
                apply himp2
                apply himp1
                intro x hx
                rcases Finset.mem_insert.mp hx with rfl | hc
                · exact Or.inr rfl
                · exact Or.inl (hyp x hc)

theorem traverse_travList_ne_none (rev : SMap (List String)) (A : Finset String)
    (hA : ∀ x b, b ∈ depsOf rev x → b ∈ A) :
    ∀ n : Nat,
    (∀ pkg st, pkg ∈ A → (A \ st.visited).card < n → traverse rev n pkg st ≠ none) ∧
    (∀ ds st, (∀ d ∈ ds, d ∈ A) → (A \ st.visited).card < n →
      travList (traverse rev n) ds st ≠ none) := by
  intro n
  induction n with
  | zero =>
      exact ⟨fun pkg st _ hcard => absurd hcard (Nat.not_lt_zero _),
        fun ds st _ hcard => absurd hcard (Nat.not_lt_zero _)⟩
  | succ n ih =>
      obtain ⟨ihv, ihl⟩ := ih
      have hvn : ∀ pkg st, pkg ∈ A → (A \ st.visited).card < Nat.succ n →
          traverse rev (Nat.succ n) pkg st ≠ none := by
        intro pkg st hpkg hcard
        rw [traverse_succ_eq]
        split_ifs with h1
        · simp
        · obtain ⟨hc1, hc2⟩ := sdiff_insert_card hpkg h1
          apply ihl (depsOf rev pkg) _ (fun d hd => hA pkg d hd)
          show (A \ insert pkg st.visited).card < n
          rw [hc1]
          omega
      refine ⟨hvn, ?_⟩
      intro ds
      induction ds with
      | nil => intro st _ _; simp [travList]
      | cons d ds ihds =>
          intro st hdA hcard
          rw [travList]
          cases hv1 : traverse rev (Nat.succ n) d
              { st with dependents := insert d st.dependents } with
          | none => exact absurd hv1 (hvn d _ (hdA d (by simp)) hcard)
          | some st₁ =>
              have hsub : st.visited ⊆ st₁.visited :=
                ((traverse_travList_ok rev (Nat.succ n)).1 d _ st₁ hv1).1
              apply ihds st₁ (fun d' hd' => hdA d' (by simp [hd']))
              calc (A \ st₁.visited).card
                  ≤ (A \ st.visited).card :=
                    Finset.card_le_card
                      (Finset.sdiff_subset_sdiff (Finset.Subset.refl A) hsub)
                _ < Nat.succ n := hcard

theorem revNames_closed (rev : SMap (List String)) (name : String) :
    ∀ x b, b ∈ depsOf rev x → b ∈ revNames rev name := by
  intro x b hb
  unfold revNames
  rw [Finset.mem_union, Finset.mem_union]
  exact Or.inl (Or.inr (depsOf_target_mem_edgeTargets hb))

theorem traverse_init_ne_none (rev : SMap (List String)) (name : String) :
    traverse rev (revFuel rev name) name { dependents := ∅, visited := ∅ } ≠ none := by
  apply (traverse_travList_ne_none rev (revNames rev name)
    (revNames_closed rev name) (revFuel rev name)).1
  · unfold revNames
    rw [Finset.mem_union]
    exact Or.inr (Finset.mem_singleton_self name)
  · show (revNames rev name \ ∅).card < revFuel rev name
    rw [Finset.sdiff_empty]
    exact Nat.lt_succ_self _

/-- C9: the dependents traversal terminates on every finite graph, cyclic
reverse edges included: with fuel bounding the recursion depth by the number
of distinct names plus one, the fueled `traverse` never exhausts its fuel,
because each recursive call visits a previously unvisited name. -/
theorem findAllDependents_terminates (g : DependencyGraph) (name : String) :
    (traverse g.reverseEdges (revFuel g.reverseEdges name) name
      { dependents := ∅, visited := ∅ }).isSome = true := by
  cases htr : traverse g.reverseEdges (revFuel g.reverseEdges name) name
      { dependents := ∅, visited := ∅ } with
  | none => exact absurd htr (traverse_init_ne_none g.reverseEdges name)
  | some st => rfl

/-- Counterexample for C4 as stated: on the cyclic graph `{a: [b], b: [a]}`
the start name `a` is itself returned by `findAllDependents("a")`, refuting
"never including name itself in the result". -/
theorem findAllDependents_includes_start_counterexample :
    "a" ∈ findAllDependents "a" exGraphCyc := by decide

/-- C4 amended: `findAllDependents(name, graph)` returns exactly the set of
names reachable from `name` by one or more `reverseEdges` steps — so `name`
itself belongs to the result exactly when it lies on a reverse-edge cycle —
and an unknown name, or one with no dependents, yields the empty set with no
error. -/
theorem findAllDependents_eq_reachable (g : DependencyGraph) (name : String) :
    (∀ x, x ∈ findAllDependents name g ↔
      Relation.TransGen (EdgeStep g.reverseEdges) name x) ∧
    (depsOf g.reverseEdges name = [] → findAllDependents name g = ∅) := by
  cases htr : traverse g.reverseEdges (revFuel g.reverseEdges name) name
      { dependents := ∅, visited := ∅ } with
  | none => exact absurd htr (traverse_init_ne_none g.reverseEdges name)
  | some stF =>
      have hres : findAllDependents name g = stF.dependents := by
        unfold findAllDependents
        rw [htr]
      obtain ⟨hvm, hdm, hpkg, hds, hcl, himp⟩ :=
        (traverse_travList_ok g.reverseEdges (revFuel g.reverseEdges name)).1
          name _ stF htr
      have hsub : ∀ y ∈ stF.dependents, y ∈ stF.visited := by
        apply himp
        intro x hx
        simp at hx
      have hforward : ∀ x, x ∈ stF.dependents →
          Relation.TransGen (EdgeStep g.reverseEdges) name x := by
        intro x hx
        rcases hds x hx with hc | hc
        · simp at hc
        · exact hc
      have hback : ∀ x, Relation.TransGen (EdgeStep g.reverseEdges) name x →
          x ∈ stF.dependents := by
        intro x h
        induction h with
        | single h1 =>
            exact (hcl name hpkg (by simp) _ h1).2
        | tail ht hr ih =>
            exact (hcl _ (hsub _ ih) (by simp) _ hr).2
      constructor
      · intro x
        rw [hres]
        exact ⟨hforward x, hback x⟩
      · intro hnil
        rw [hres]
        rw [Finset.eq_empty_iff_forall_not_mem]
        intro x hx
        obtain ⟨z, hz⟩ := transGen_head_step (hforward x hx)
        unfold EdgeStep at hz
        rw [hnil] at hz
        simp at hz

end TreeCore
